import Mathlib

/-!
Verification of the aggregation and identity-resolution pipeline of the
crawler repository: the name canonicalizer and shark resolver of
`src/sharks.py`, and the grouper of `src/main.py`.

Strings are modelled as Lean `String`s (lists of Unicode code points);
Python string primitives (`str.strip`, `str.lower`, `str.upper` and the
regular expressions used by the source) are embedded as executable
functions on `List Char` below.
-/

namespace Crawler

/-! ### Python string primitives -/

/-- ASCII whitespace recognised by `str.strip()` (space, tab, LF, VT, FF, CR). -/
def isSpaceChar (c : Char) : Bool :=
  c.toNat = 32 || c.toNat = 9 || c.toNat = 10 || c.toNat = 11 || c.toNat = 12 || c.toNat = 13

/-- Python `str.strip()`: drop leading and trailing whitespace. -/
def pyStrip (l : List Char) : List Char :=
  ((l.dropWhile isSpaceChar).reverse.dropWhile isSpaceChar).reverse

/-- Python `str.lower()` on one character (ASCII `A`-`Z` plus the Latin-1
uppercase range `À`-`Þ`, excluding `×`; other characters unchanged). -/
def pyLowerChar (c : Char) : Char :=
  if 65 ≤ c.toNat ∧ c.toNat ≤ 90 then Char.ofNat (c.toNat + 32)
  else if 192 ≤ c.toNat ∧ c.toNat ≤ 222 ∧ c.toNat ≠ 215 then Char.ofNat (c.toNat + 32)
  else c

/-- Python `str.upper()` on one character (ASCII `a`-`z` plus the Latin-1
lowercase range `à`-`þ` excluding `÷`, and the two further lowercase
letters relevant here: ı U+0131 upper-cases to `I` and ſ U+017F to
`S`; other characters unchanged). -/
def pyUpperChar (c : Char) : Char :=
  if 97 ≤ c.toNat ∧ c.toNat ≤ 122 then Char.ofNat (c.toNat - 32)
  else if 224 ≤ c.toNat ∧ c.toNat ≤ 254 ∧ c.toNat ≠ 247 then Char.ofNat (c.toNat - 32)
  else if c.toNat = 305 then Char.ofNat 73
  else if c.toNat = 383 then Char.ofNat 83
  else c

/-- Python `s.strip()` on a `String`. -/
def pyStripStr (s : String) : String := String.mk (pyStrip s.data)

/-- Python `s.lower()` on a `String`. -/
def pyLowerStr (s : String) : String := String.mk (s.data.map pyLowerChar)

/-- Python `s.upper()` on a `String`. -/
def pyUpperStr (s : String) : String := String.mk (s.data.map pyUpperChar)

/-! ### Name canonicalizer (`sharks.py`, `_normalize_shark_name`) -/

/-- The character class of `re.sub(r"[\"'`Â´]", "", s)` in the source:
double quote, single quote, backtick, `Â` (U+00C2) and `´` (U+00B4).
(The source file holds the two bytes `Â´`; both characters belong
to the class.) -/
def isQuoteChar (c : Char) : Bool :=
  c.toNat = 34 || c.toNat = 39 || c.toNat = 96 || c.toNat = 194 || c.toNat = 180

/-- Membership in `[a-z0-9]`, the alphabet kept by
`re.sub(r"[^a-z0-9]+", " ", s)`. -/
def isAlnumChar (c : Char) : Bool :=
  (97 ≤ c.toNat && c.toNat ≤ 122) || (48 ≤ c.toNat && c.toNat ≤ 57)

/-- Accumulator-based extraction of the maximal `[a-z0-9]` runs of a
string.  This is the combined effect of `re.sub(r"[^a-z0-9]+", " ", s)`,
`re.sub(r"\s+", " ", s).strip()` and `[t for t in s.split(" ") if t]` in
`_normalize_shark_name`: each maximal run of characters outside
`[a-z0-9]` becomes a separator, and the remaining nonempty tokens are
returned in order. -/
def tokensAux : List Char → List Char → List (List Char)
  | [], cur => if cur = [] then [] else [cur.reverse]
  | c :: cs, cur =>
    if isAlnumChar c then tokensAux cs (c :: cur)
    else if cur = [] then tokensAux cs []
    else cur.reverse :: tokensAux cs []

/-- The token list of a character list (maximal `[a-z0-9]` runs). -/
def tokensOf (l : List Char) : List (List Char) := tokensAux l []

/-- The set `_SUFFIX_STOPWORDS` from `sharks.py`, verbatim (including the
unreachable `l.p` and `s/a` entries, which contain non-alphanumeric
characters and hence can never arise as tokens). -/
def SUFFIX_STOPWORDS : List (List Char) :=
  [ "inc".data, "incorporated".data, "corp".data, "corporation".data,
    "co".data, "company".data, "ltd".data, "ltda".data, "plc".data,
    "llc".data, "lp".data, "l.p".data, "sa".data, "s/a".data,
    "holding".data, "holdings".data ]

/-- Join tokens with single spaces (`" ".join(filtered)`). -/
def joinTokens : List (List Char) → List Char
  | [] => []
  | [t] => t
  | t :: ts => t ++ ' ' :: joinTokens ts

/-- The token-level tail of `_normalize_shark_name`: with no token left
after punctuation replacement the source has already returned `""`
(`if not s: return ""`); otherwise drop the stopword tokens, fall back
to the first original token when every token was a stopword, and join
the survivors with single spaces. -/
def normalizeTokens (ts0 : List (List Char)) : List Char :=
  match ts0 with
  | [] => []
  | t :: ts =>
    let filtered := (t :: ts).filter (fun tok => !(SUFFIX_STOPWORDS.contains tok))
    if filtered = [] then t else joinTokens filtered

/-- Core of `_normalize_shark_name` on character lists, following the
source line by line: strip and lower; return `""` when empty; delete the
quote-class characters; tokenize on non-`[a-z0-9]` runs; finish with
the token-level steps above. -/
def normalizeCore (name : List Char) : List Char :=
  let s := (pyStrip name).map pyLowerChar
  if s = [] then []
  else normalizeTokens (tokensOf (s.filter (fun c => !isQuoteChar c)))

/-- The function `_normalize_shark_name` on `String`s. -/
def _normalize_shark_name (name : String) : String :=
  String.mk (normalizeCore name.data)

/-! ### String comparison and sorting

Python compares strings lexicographically by code point, and
`list.sort` / `sorted` are stable sorts; they are embedded as an
explicit stable insertion sort over a boolean `≤` test. -/

/-- Python `<` on strings: lexicographic by code point. -/
def listCharLt : List Char → List Char → Bool
  | [], [] => false
  | [], _ :: _ => true
  | _ :: _, [] => false
  | a :: as, b :: bs =>
    if a.toNat < b.toNat then true
    else if b.toNat < a.toNat then false
    else listCharLt as bs

/-- Python `<` on `String`s. -/
def strLt (a b : String) : Bool := listCharLt a.data b.data

/-- Python `<=` on `String`s (total order: `a <= b` iff `¬ b < a`). -/
def strLe (a b : String) : Bool := !strLt b a

/-- Insert an element into a list, before the first element it is
`le`-below; used with a stable fold this reproduces a stable sort. -/
def insertLe (le : α → α → Bool) (x : α) : List α → List α
  | [] => [x]
  | y :: ys => if le x y then x :: y :: ys else y :: insertLe le x ys

/-- Stable insertion sort: elements equivalent under `le` keep their
original relative order, as Python's sort does. -/
def sortLe (le : α → α → Bool) : List α → List α
  | [] => []
  | x :: xs => insertLe le x (sortLe le xs)

/-! ### Shark resolver (`sharks.py`, `build_sharks`)

`build_sharks` reads every `*.acionistas.json` file of the output
directory in sorted name order.  A file is modelled as its name plus
the outcome of `json.loads`: `none` when parsing raised (caught by the
`try`/`except` and skipped), otherwise either a non-dict JSON value
(list, string, number, boolean or null — on which the very next line
`payload.get("ticker")` raises an uncaught `AttributeError`), or a
JSON object carrying the `ticker` field (the empty string standing for
an absent or falsy field), whether the `items` field was a list, and
the list of row dictionaries.  Because of the uncaught error path,
`fileRows` and `build_sharks` are `Option`-valued: `none` models the
exception propagating out of `build_sharks`. -/

/-- One element of a file's `items` list: whether it was a `dict`, and
its `acionista` field (the empty string standing for an absent or
falsy field, which the source turns into `""`). -/
structure ShareRow where
  isDict : Bool
  acionista : String
deriving DecidableEq, Repr

/-- A parsed `*.acionistas.json` payload. -/
structure FilePayload where
  ticker : String
  itemsIsList : Bool
  items : List ShareRow
deriving DecidableEq, Repr

/-- The result of a successful `json.loads`: a JSON object, or any
non-dict JSON value.  On a non-dict value `payload.get("ticker")`
(`sharks.py` line 62, outside the `try`/`except`) raises an uncaught
`AttributeError` that aborts `build_sharks`. -/
inductive ParsedJson where
  | dict (p : FilePayload)
  | nonDict
deriving DecidableEq, Repr

/-- A globbed artifact file: its file name and its parse outcome
(`none` models a `json.loads` failure, caught and skipped). -/
structure ArtifactFile where
  name : String
  payload : Option ParsedJson
deriving DecidableEq, Repr

/-- Whether a character is matched by the class `[a-z0-9]` under
`re.IGNORECASE` with Unicode matching: the ASCII letters and digits
plus the four non-ASCII characters that Python's `re` documentation
lists as matching `[a-z]`/`[A-Z]` with `IGNORECASE` — İ (U+0130),
ı (U+0131), ſ (U+017F) and K (U+212A). -/
def matchesAlnumCI (c : Char) : Bool :=
  isAlnumChar c || (65 ≤ c.toNat && c.toNat ≤ 90) ||
    c.toNat = 304 || c.toNat = 305 || c.toNat = 383 || c.toNat = 8490

/-- Whether input character `c` is matched by the literal pattern
character `p` (here a lowercase letter or a dot) under `re.IGNORECASE`
with Unicode matching: `p` itself, its ASCII upper-case form, or a
case-folding equivalent of `i`, `s` or `k`. -/
def literalMatchesCI (p c : Char) : Bool :=
  c = p ||
    (97 ≤ p.toNat && p.toNat ≤ 122 && c.toNat + 32 = p.toNat) ||
    (p.toNat = 105 && (c.toNat = 304 || c.toNat = 305)) ||
    (p.toNat = 115 && c.toNat = 383) ||
    (p.toNat = 107 && c.toNat = 8490)

/-- Character-wise `re.IGNORECASE` match of a literal pattern against
an input fragment; also forces the lengths to agree. -/
def matchesLiteral : List Char → List Char → Bool
  | [], [] => true
  | p :: ps, c :: cs => literalMatchesCI p c && matchesLiteral ps cs
  | _, _ => false

/-- The file-name fallback of `build_sharks`:
`re.match(r"^([a-z0-9]+)\.acionistas\.json$", p.name, re.IGNORECASE)`.
The pattern is anchored and its literal tail has a fixed length, so a
match splits the name into a nonempty stem whose every character is
matched case-insensitively by `[a-z0-9]`, followed by
`.acionistas.json` matched case-insensitively; the match yields the
stem (group 1). -/
def fallbackStem (name : String) : Option (List Char) :=
  let l := name.data
  let suffix := ".acionistas.json".data
  let n := l.length - suffix.length
  if matchesLiteral suffix (l.drop n) ∧ 0 < n ∧
      (l.take n).all matchesAlnumCI then
    some (l.take n)
  else none

/-- The ticker of an artifact file: the `ticker` field stripped and
upper-cased; when that is empty, the file-name fallback (whose group is
stripped — a no-op on alphanumerics — and upper-cased); the empty
string when both fail. -/
def fileTicker (f : ArtifactFile) : String :=
  match f.payload with
  | some (.dict p) =>
    let t := pyUpperStr (pyStripStr p.ticker)
    if t = "" then
      match fallbackStem f.name with
      | some stem => String.mk (stem.map pyUpperChar)
      | none => ""
    else t
  | _ => ""

/-- A valid shareholder row extracted from a file: the file's resolved
ticker, the stripped raw name, and its canonical key. -/
structure SharkRow where
  ticker : String
  nameRaw : String
  key : String
deriving DecidableEq, Repr

/-- The rows an artifact file contributes to resolution, embedding the
per-file logic of `build_sharks`: a failed parse is caught and the
file skipped (`some []`); a non-dict payload reaches
`payload.get("ticker")` and raises an uncaught `AttributeError`
(`none`); a dict payload is skipped when no ticker can be resolved or
`items` is not a list, and otherwise contributes one row per dict item
whose stripped `acionista` and canonical key are nonempty. -/
def fileRows (f : ArtifactFile) : Option (List SharkRow) :=
  match f.payload with
  | none => some []
  | some .nonDict => none
  | some (.dict p) =>
    let ticker := fileTicker f
    if ticker = "" ∨ ¬ p.itemsIsList then some []
    else
      some (p.items.filterMap (fun it =>
        if !it.isDict then none
        else
          let nameRaw := pyStripStr it.acionista
          if nameRaw = "" then none
          else
            let key := _normalize_shark_name nameRaw
            if key = "" then none
            else some ⟨ticker, nameRaw, key⟩))

/-- An artifact file the scan loop skips wholesale without aborting:
`json.loads` raised (caught), or the payload is a dict with no
resolvable ticker or with `items` not a list.  A non-dict payload is
not skipped — it crashes the loop. -/
def skippedFile (f : ArtifactFile) : Bool :=
  match f.payload with
  | none => true
  | some .nonDict => false
  | some (.dict p) => fileTicker f = "" || !p.itemsIsList

/-- The rows of all files in input order; `none` as soon as some file
raises, modelling the exception propagating out of the loop. -/
def collectRows : List ArtifactFile → Option (List SharkRow)
  | [] => some []
  | f :: fs =>
    match fileRows f with
    | none => none
    | some rs =>
      match collectRows fs with
      | none => none
      | some rest => some (rs ++ rest)

/-- The accumulator state of the scan loop: `accionistas_map` (canonical
key to the tickers seen, insertion-ordered and deduplicated — a faithful
model of the Python `set`, which is only ever read through `sorted`) and
`display_name_counts` (canonical key to per-raw-spelling counts,
insertion-ordered as Python dicts are). -/
structure AccState where
  acc : List (String × List String)
  cnt : List (String × List (String × Nat))
deriving DecidableEq, Repr

/-- Source line `accionistas_map.setdefault(key, set()).add(ticker)`. -/
def addTicker (m : List (String × List String)) (k t : String) :
    List (String × List String) :=
  match m with
  | [] => [(k, [t])]
  | (k', ts) :: rest =>
    if k' = k then (k', if t ∈ ts then ts else ts ++ [t]) :: rest
    else (k', ts) :: addTicker rest k t

/-- Source line `display_name_counts[key][name_raw] = display_name_counts[key].get(name_raw, 0) + 1`. -/
def bumpCount (cs : List (String × Nat)) (n : String) : List (String × Nat) :=
  match cs with
  | [] => [(n, 1)]
  | (n', c) :: rest =>
    if n' = n then (n', c + 1) :: rest else (n', c) :: bumpCount rest n

/-- Source line `display_name_counts.setdefault(key, \x7b\x7d)` followed by the bump. -/
def addCount (m : List (String × List (String × Nat))) (k n : String) :
    List (String × List (String × Nat)) :=
  match m with
  | [] => [(k, [(n, 1)])]
  | (k', cs) :: rest =>
    if k' = k then (k', bumpCount cs n) :: rest
    else (k', cs) :: addCount rest k n

/-- One iteration of the row loop of `build_sharks`. -/
def scanStep (st : AccState) (r : SharkRow) : AccState :=
  ⟨addTicker st.acc r.key r.ticker, addCount st.cnt r.key r.nameRaw⟩

/-- Lookup `accionistas_map[k]` (empty when absent). -/
def tickersOf (m : List (String × List String)) (k : String) : List String :=
  match m with
  | [] => []
  | (k', ts) :: rest => if k' = k then ts else tickersOf rest k

/-- Lookup `display_name_counts.get(k) or \x7b\x7d`. -/
def countsOf (m : List (String × List (String × Nat))) (k : String) :
    List (String × Nat) :=
  match m with
  | [] => []
  | (k', cs) :: rest => if k' = k then cs else countsOf rest k

/-- Lookup `name_counts.get(n, 0)`. -/
def countVal (cs : List (String × Nat)) (n : String) : Nat :=
  match cs with
  | [] => 0
  | (n', c) :: rest => if n' = n then c else countVal rest n

/-- How often raw spelling `n` occurs for canonical key `k` among the
scanned rows. -/
def spellCount (rows : List SharkRow) (k n : String) : Nat :=
  rows.countP (fun r => decide (r.key = k) && decide (r.nameRaw = n))

/-- The whole scan: fold the row loop over all files' rows. -/
def scanRows (rows : List SharkRow) : AccState :=
  rows.foldl scanStep ⟨[], []⟩

/-- A resolved shark, as the emitted dict
`{"shark_name": ..., "quantity": ..., "items": ...}`. -/
structure Shark where
  shark_name : String
  quantity : Nat
  items : List String
deriving DecidableEq, Repr

/-- The comparison behind
`sorted(name_counts.items(), key=lambda x: (-x[1], x[0]))`. -/
def countLe (a b : String × Nat) : Bool :=
  b.2 < a.2 || (a.2 = b.2 && strLe a.1 b.1)

/-- Build one shark from an `accionistas_map` entry, following the
emission loop: `items = sorted(tickers)`; the display name is the head
of the count items sorted by `(-count, name)`, falling back to the key
when the counts dict is missing or empty. -/
def mkShark (cnt : List (String × List (String × Nat)))
    (e : String × List String) : Shark :=
  let items := sortLe strLe e.2
  let nameCounts := countsOf cnt e.1
  let shark_name :=
    match sortLe countLe nameCounts with
    | [] => e.1
    | (n, _) :: _ => n
  ⟨shark_name, items.length, items⟩

/-- The final list comparison behind
`sharks.sort(key=lambda x: (-int(x["quantity"]), str(x["shark_name"])))`. -/
def sharkLe (a b : Shark) : Bool :=
  b.quantity < a.quantity || (a.quantity = b.quantity && strLe a.shark_name b.shark_name)

/-- The function `build_sharks` over an already-name-sorted list of
artifact files: scan every file's rows, emit one shark per canonical
key in insertion order, and sort by quantity descending then display
name ascending.  The result is `none` when some artifact's payload
parsed to a non-dict JSON value: processing it raises an uncaught
`AttributeError` and the whole resolution aborts. -/
def build_sharks (files : List ArtifactFile) : Option (List Shark) :=
  match collectRows files with
  | none => none
  | some rows =>
    some (sortLe sharkLe ((scanRows rows).acc.map (mkShark (scanRows rows).cnt)))

/-! ### Grouper (`main.py`, `main`, lines 86-146)

A scraped record is modelled by its `ticker` and `source` fields (the
empty string standing for an absent or falsy field) plus an opaque
identity for its remaining fields. -/

structure Record where
  ticker : String
  source : String
  data : Nat
deriving DecidableEq, Repr

/-- Source line `str(item.get("ticker") or "").strip().upper() or "UNKNOWN"`. -/
def normTicker (r : Record) : String :=
  let t := pyUpperStr (pyStripStr r.ticker)
  if t = "" then "UNKNOWN" else t

/-- Source line `str(item.get("source") or "").strip().lower() or "data"`. -/
def normSource (r : Record) : String :=
  let s := pyLowerStr (pyStripStr r.source)
  if s = "" then "data" else s

/-- Source line `by_key.setdefault((ticker, source), []).append(item)`. -/
def addRecord (m : List ((String × String) × List Record))
    (k : String × String) (r : Record) :
    List ((String × String) × List Record) :=
  match m with
  | [] => [(k, [r])]
  | (k', rs) :: rest =>
    if k' = k then (k', rs ++ [r]) :: rest
    else (k', rs) :: addRecord rest k r

/-- The `by_key` dict: records bucketed by normalized `(ticker, source)`
in insertion order, each bucket keeping the original relative order. -/
def buildByKey (items : List Record) : List ((String × String) × List Record) :=
  items.foldl (fun m r => addRecord m (normTicker r, normSource r) r) []

/-- Python tuple `<=` on `(ticker, source)` keys (lexicographic;
entries of `by_key` have distinct keys so the values are never
compared by `sorted`). -/
def keyLe (a b : String × String) : Bool :=
  strLt a.1 b.1 || (a.1 = b.1 && strLe a.2 b.2)

/-- Source line `sorted(by_key.items())`. -/
def byKeySorted (items : List Record) : List ((String × String) × List Record) :=
  sortLe (fun e1 e2 => keyLe e1.1 e2.1) (buildByKey items)

/-- The JSON shape written for a bucket: a bare record dict, a
`{"items": [...]}` wrapper, or the per-ticker artifact dict
`{"generated_at": ..., "ticker": ..., "source": ..., "items": [...]}`
(the timestamp is outside the model). -/
inductive GPayload where
  | bare (r : Record)
  | wrap (items : List Record)
  | full (ticker source : String) (items : List Record)
deriving DecidableEq, Repr

/-- The records carried by a payload. -/
def GPayload.records : GPayload → List Record
  | .bare r => [r]
  | .wrap rs => rs
  | .full _ _ rs => rs

/-- Source line `ticker_items[0] if len(ticker_items) == 1 else ...` —
the wide-map payload shape. -/
def mkWide (rs : List Record) : GPayload :=
  match rs with
  | [r] => .bare r
  | _ => .wrap rs

/-- Output-loop dispatch for an entry bound for the per-ticker files:
sources other than `"volume"` and `"magic_formula"` are written as the
full artifact dict, always carrying the bucket list under `items`. -/
def perSelect (e : (String × String) × List Record) :
    Option ((String × String) × GPayload) :=
  if e.1.2 = "volume" ∨ e.1.2 = "magic_formula" then none
  else some (e.1, .full e.1.1 e.1.2 e.2)

/-- Output-loop dispatch for the `volume_map`, keyed purely by ticker. -/
def volSelect (e : (String × String) × List Record) :
    Option (String × GPayload) :=
  if e.1.2 = "volume" then some (e.1.1, mkWide e.2) else none

/-- Output-loop dispatch for the `magic_formula_map`, keyed purely by ticker. -/
def mfSelect (e : (String × String) × List Record) :
    Option (String × GPayload) :=
  if e.1.2 = "magic_formula" then some (e.1.1, mkWide e.2) else none

/-- The per-ticker artifacts written by the output loop.  (The loop
appends each sorted `by_key` entry to exactly one of the three outputs;
the three `filterMap`s reproduce those appends in order.) -/
def perTickerOut (items : List Record) : List ((String × String) × GPayload) :=
  (byKeySorted items).filterMap perSelect

/-- The `volume_map` entries. -/
def volumeOut (items : List Record) : List (String × GPayload) :=
  (byKeySorted items).filterMap volSelect

/-- The `magic_formula_map` entries. -/
def magicFormulaOut (items : List Record) : List (String × GPayload) :=
  (byKeySorted items).filterMap mfSelect

/-- The normalized `(ticker, source)` key a record is bucketed under. -/
def recKey (r : Record) : String × String := (normTicker r, normSource r)

/-- Contents of the bucket keyed `k` in a `by_key` association list. -/
def bucketOf (m : List ((String × String) × List Record)) (k : String × String) :
    List Record :=
  match m with
  | [] => []
  | (k', rs) :: rest => if k' = k then rs else bucketOf rest k

/-- All records carried by the three outputs, in output order. -/
def outRecords (items : List Record) : List Record :=
  (perTickerOut items).flatMap (fun e => e.2.records) ++
    (volumeOut items).flatMap (fun e => e.2.records) ++
    (magicFormulaOut items).flatMap (fun e => e.2.records)

/-- Total number of records across all buckets of all three outputs. -/
def groupedCount (items : List Record) : Nat :=
  ((perTickerOut items).map (fun e => e.2.records.length)).sum +
    ((volumeOut items).map (fun e => e.2.records.length)).sum +
    ((magicFormulaOut items).map (fun e => e.2.records.length)).sum

/-- The four shareholder rows of the spec's shark-ordering fixture, as
artifact files: raw name `"ACME Corp"` under ticker `A`, `"ACME CORP"`
under `B`, `"ACME"` under `A`, `"Beta Ltd"` under `C`. -/
def fixtureFiles : List ArtifactFile :=
  [ ⟨"a.acionistas.json", some (.dict ⟨"A", true, [⟨true, "ACME Corp"⟩]⟩)⟩,
    ⟨"b.acionistas.json", some (.dict ⟨"B", true, [⟨true, "ACME CORP"⟩]⟩)⟩,
    ⟨"a2.acionistas.json", some (.dict ⟨"A", true, [⟨true, "ACME"⟩]⟩)⟩,
    ⟨"c.acionistas.json", some (.dict ⟨"C", true, [⟨true, "Beta Ltd"⟩]⟩)⟩ ]

example :
    perTickerOut [⟨"A", "insiders", 7⟩] =
      [(("A", "insiders"), .full "A" "insiders" [⟨"A", "insiders", 7⟩])] := by decide
example :
    volumeOut [⟨"A", "volume", 1⟩, ⟨"b", "Volume ", 2⟩, ⟨"B", "volume", 3⟩] =
      [("A", .bare ⟨"A", "volume", 1⟩),
       ("B", .wrap [⟨"b", "Volume ", 2⟩, ⟨"B", "volume", 3⟩])] := by decide
example : groupedCount [⟨"A", "volume", 1⟩, ⟨"", "", 2⟩, ⟨"A", "volume", 3⟩] = 3 := by
  decide

example : fallbackStem "abc.acionistas.json" = some "abc".data := by decide
example : fallbackStem "ABC.ACIONISTAS.JSON" = some "ABC".data := by decide
example : fallbackStem "a-b.acionistas.json" = none := by decide
example : fallbackStem "x.y.acionistas.json" = none := by decide
example : fallbackStem (String.mk (Char.ofNat 8490 :: ".acionistas.json".data)) =
    some [Char.ofNat 8490] := by decide
example : fileTicker ⟨"abc.acionistas.json", some (.dict ⟨"", true, []⟩)⟩ = "ABC" := by
  decide

example : _normalize_shark_name "ACME Corp" = "acme" := by decide
example : _normalize_shark_name "Beta Ltd" = "beta" := by decide
example : _normalize_shark_name "Banco Itaú S/A" = "banco ita s a" := by decide
example : _normalize_shark_name "BANCO ITAU SA" = "banco itau" := by decide
example : _normalize_shark_name "banco   itau, s.a." = "banco itau s a" := by decide
example : _normalize_shark_name "Ltda" = "ltda" := by decide
example : _normalize_shark_name "  " = "" := by decide
example : _normalize_shark_name "!!!" = "" := by decide

/-! ### General facts about the embedded sort and string order -/

theorem insertLe_perm (le : α → α → Bool) (x : α) (l : List α) :
    List.Perm (insertLe le x l) (x :: l) := by
  induction l with
  | nil => exact List.Perm.refl _
  | cons y ys ih =>
    by_cases h : le x y = true
    · rw [insertLe, if_pos h]
    · rw [insertLe, if_neg h]
      exact (ih.cons y).trans (List.Perm.swap x y ys)

theorem sortLe_perm (le : α → α → Bool) (l : List α) :
    List.Perm (sortLe le l) l := by
  induction l with
  | nil => exact List.Perm.refl _
  | cons x xs ih => exact (insertLe_perm le x (sortLe le xs)).trans (ih.cons x)

theorem insertLe_chain (le : α → α → Bool) (htot : ∀ a b, le a b || le b a)
    (x : α) (l : List α) (h : List.Chain' (fun a b => le a b = true) l) :
    List.Chain' (fun a b => le a b = true) (insertLe le x l) := by
  induction l with
  | nil => simp [insertLe]
  | cons y ys ih =>
    by_cases hxy : le x y = true
    · rw [insertLe, if_pos hxy]
      exact List.chain'_cons.mpr ⟨hxy, h⟩
    · have hyx : le y x = true := by
        have htot' := htot x y
        simp only [Bool.or_eq_true] at htot'
        exact htot'.resolve_left hxy
      rw [insertLe, if_neg hxy, List.chain'_cons']
      refine ⟨?_, ih h.tail⟩
      intro z hz
      cases ys with
      | nil =>
        simp only [insertLe, List.head?_cons, Option.mem_def, Option.some.injEq] at hz
        subst hz
        exact hyx
      | cons w ws =>
        by_cases hxw : le x w = true
        · rw [insertLe, if_pos hxw] at hz
          simp only [List.head?_cons, Option.mem_def, Option.some.injEq] at hz
          subst hz
          exact hyx
        · rw [insertLe, if_neg hxw] at hz
          simp only [List.head?_cons, Option.mem_def, Option.some.injEq] at hz
          subst hz
          exact (List.chain'_cons.mp h).1

theorem sortLe_chain (le : α → α → Bool) (htot : ∀ a b, le a b || le b a)
    (l : List α) : List.Chain' (fun a b => le a b = true) (sortLe le l) := by
  induction l with
  | nil => simp [sortLe]
  | cons x xs ih => exact insertLe_chain le htot x (sortLe le xs) ih

theorem listCharLt_asymm :
    ∀ as bs : List Char, listCharLt as bs → listCharLt bs as = false := by
  intro as
  induction as with
  | nil =>
    intro bs h
    cases bs with
    | nil => simp [listCharLt] at h
    | cons b bs => simp [listCharLt]
  | cons a as ih =>
    intro bs h
    cases bs with
    | nil => simp [listCharLt] at h
    | cons b bs =>
      rw [listCharLt] at h ⊢
      by_cases h1 : a.toNat < b.toNat
      · have h2 : ¬ b.toNat < a.toNat := by omega
        simp [h1, h2]
      · by_cases h2 : b.toNat < a.toNat
        · simp [h1, h2] at h
        · simp only [h1, h2, if_false] at h ⊢
          exact ih bs h

theorem char_eq_of_toNat_eq (a b : Char) (h : a.toNat = b.toNat) : a = b :=
  Char.eq_of_val_eq (UInt32.toNat.inj h)

theorem listCharLt_trans :
    ∀ as bs cs : List Char,
      listCharLt as bs → listCharLt bs cs → listCharLt as cs := by
  intro as
  induction as with
  | nil =>
    intro bs cs h1 h2
    cases bs with
    | nil => simp [listCharLt] at h1
    | cons b bs =>
      cases cs with
      | nil => simp [listCharLt] at h2
      | cons c cs => simp [listCharLt]
  | cons a as ih =>
    intro bs cs h1 h2
    cases bs with
    | nil => simp [listCharLt] at h1
    | cons b bs =>
      cases cs with
      | nil => simp [listCharLt] at h2
      | cons c cs =>
        rw [listCharLt] at h1 h2 ⊢
        by_cases hab : a.toNat < b.toNat
        · by_cases hbc : b.toNat < c.toNat
          · rw [if_pos (by omega)]
          · rw [if_neg hbc] at h2
            by_cases hcb : c.toNat < b.toNat
            · rw [if_pos hcb] at h2
              exact absurd h2 (by simp)
            · rw [if_pos (by omega)]
        · rw [if_neg hab] at h1
          by_cases hba : b.toNat < a.toNat
          · rw [if_pos hba] at h1
            exact absurd h1 (by simp)
          · rw [if_neg hba] at h1
            by_cases hbc : b.toNat < c.toNat
            · rw [if_pos (by omega)]
            · rw [if_neg hbc] at h2
              by_cases hcb : c.toNat < b.toNat
              · rw [if_pos hcb] at h2
                exact absurd h2 (by simp)
              · rw [if_neg hcb] at h2
                rw [if_neg (by omega), if_neg (by omega)]
                exact ih bs cs h1 h2

theorem listCharLt_conn :
    ∀ as bs : List Char,
      listCharLt as bs = false → listCharLt bs as = false → as = bs := by
  intro as
  induction as with
  | nil =>
    intro bs h1 h2
    cases bs with
    | nil => rfl
    | cons b bs => simp [listCharLt] at h1
  | cons a as ih =>
    intro bs h1 h2
    cases bs with
    | nil => simp [listCharLt] at h2
    | cons b bs =>
      rw [listCharLt] at h1 h2
      by_cases hab : a.toNat < b.toNat
      · rw [if_pos hab] at h1
        exact absurd h1 (by simp)
      · rw [if_neg hab] at h1
        by_cases hba : b.toNat < a.toNat
        · rw [if_pos hba] at h2
          exact absurd h2 (by simp)
        · rw [if_neg hba] at h1
          rw [if_neg hba, if_neg hab] at h2
          have hc : a = b := char_eq_of_toNat_eq a b (by omega)
          rw [hc, ih bs h1 h2]

theorem strLe_trans (a b c : String) (h1 : strLe a b = true)
    (h2 : strLe b c = true) : strLe a c = true := by
  rw [strLe, strLt, Bool.not_eq_true'] at h1 h2 ⊢
  by_cases hca : listCharLt c.data a.data = true
  · by_cases hbc : listCharLt b.data c.data = true
    · exact absurd (listCharLt_trans _ _ _ hbc hca) (by simp [h1])
    · have hbc' : b.data = c.data :=
        listCharLt_conn _ _ (Bool.eq_false_iff.mpr hbc) h2
      rw [← hbc'] at hca
      exact absurd hca (by simp [h1])
  · exact Bool.eq_false_iff.mpr hca

theorem strLe_total (a b : String) : strLe a b || strLe b a := by
  rw [strLe, strLe, strLt, strLt]
  cases hlt : listCharLt b.data a.data with
  | false => simp
  | true => simp [listCharLt_asymm _ _ hlt]

theorem strLe_refl (a : String) : strLe a a = true := by
  have h := strLe_total a a
  simp only [Bool.or_self] at h
  exact h

theorem sharkLe_total (a b : Shark) : sharkLe a b || sharkLe b a := by
  rw [sharkLe, sharkLe]
  rcases Nat.lt_trichotomy a.quantity b.quantity with h | h | h
  · simp [h, Nat.not_lt_of_lt h]
  · have := strLe_total a.shark_name b.shark_name
    rcases Bool.or_eq_true_iff.mp this with h2 | h2 <;> simp [h, h2]
  · simp [h]

/-! ### General facts about the canonicalizer -/

theorem alnum_bounds (c : Char) (h : isAlnumChar c = true) :
    (97 ≤ c.toNat ∧ c.toNat ≤ 122) ∨ (48 ≤ c.toNat ∧ c.toNat ≤ 57) := by
  simp only [isAlnumChar, Bool.or_eq_true, Bool.and_eq_true,
    decide_eq_true_eq] at h
  exact h

theorem pyLowerChar_alnum (c : Char) (h : isAlnumChar c = true) :
    pyLowerChar c = c := by
  have hb := alnum_bounds c h
  rw [pyLowerChar, if_neg (by omega), if_neg (by omega)]

theorem pyLowerChar_space : pyLowerChar ' ' = ' ' := by decide

theorem alnum_not_space (c : Char) (h : isAlnumChar c = true) :
    isSpaceChar c = false := by
  have hb := alnum_bounds c h
  rw [Bool.eq_false_iff]
  intro hsp
  simp only [isSpaceChar, Bool.or_eq_true, decide_eq_true_eq] at hsp
  omega

theorem alnum_not_quote (c : Char) (h : isAlnumChar c = true) :
    isQuoteChar c = false := by
  have hb := alnum_bounds c h
  rw [Bool.eq_false_iff]
  intro hq
  simp only [isQuoteChar, Bool.or_eq_true, decide_eq_true_eq] at hq
  omega

theorem dropWhile_eq_self_of_head (p : Char → Bool) (l : List Char)
    (h : ∀ c, l.head? = some c → p c = false) : l.dropWhile p = l := by
  cases l with
  | nil => rfl
  | cons c t =>
    rw [List.dropWhile_cons, h c rfl]
    simp

theorem pyStrip_eq_self (l : List Char)
    (hh : ∀ c, l.head? = some c → isSpaceChar c = false)
    (hl : ∀ c, l.getLast? = some c → isSpaceChar c = false) :
    pyStrip l = l := by
  rw [pyStrip, dropWhile_eq_self_of_head _ _ hh,
    dropWhile_eq_self_of_head _ _
      (fun c hc => hl c (by rwa [List.head?_reverse] at hc))]
  exact List.reverse_reverse l

theorem getLast?_append_right (l2 l1 : List Char) (h : l2 ≠ []) :
    (l1 ++ l2).getLast? = l2.getLast? := by
  rw [List.getLast?_append]
  cases hx : l2.getLast? with
  | none => exact absurd (List.getLast?_eq_none_iff.mp hx) h
  | some x => rfl

theorem tokensAux_append_alnum (t : List Char) :
    ∀ (l cur : List Char), t.all isAlnumChar = true →
      tokensAux (t ++ l) cur = tokensAux l (t.reverse ++ cur) := by
  induction t with
  | nil => intro l cur h; rfl
  | cons c t ih =>
    intro l cur h
    rw [List.all_cons, Bool.and_eq_true] at h
    rw [List.cons_append, tokensAux, if_pos h.1, ih l (c :: cur) h.2,
      List.reverse_cons, List.append_assoc, List.singleton_append]

theorem tokensAux_space (l cur : List Char) :
    tokensAux (' ' :: l) cur =
      if cur = [] then tokensAux l [] else cur.reverse :: tokensAux l [] := by
  rw [tokensAux, if_neg (by decide)]

theorem tokensAux_all (l : List Char) :
    ∀ cur, cur.all isAlnumChar = true →
      ∀ t ∈ tokensAux l cur, t ≠ [] ∧ t.all isAlnumChar = true := by
  induction l with
  | nil =>
    intro cur hcur t ht
    rw [tokensAux] at ht
    by_cases hc : cur = []
    · rw [if_pos hc] at ht
      simp at ht
    · rw [if_neg hc] at ht
      simp only [List.mem_singleton] at ht
      subst ht
      exact ⟨by simpa using hc, by simpa using hcur⟩
  | cons c cs ih =>
    intro cur hcur t ht
    rw [tokensAux] at ht
    by_cases h1 : isAlnumChar c = true
    · rw [if_pos h1] at ht
      exact ih (c :: cur) (by simp [List.all_cons, h1, hcur]) t ht
    · rw [if_neg h1] at ht
      by_cases h2 : cur = []
      · rw [if_pos h2] at ht
        exact ih [] rfl t ht
      · rw [if_neg h2] at ht
        rcases List.mem_cons.mp ht with ht | ht
        · subst ht
          exact ⟨by simpa using h2, by simpa using hcur⟩
        · exact ih [] rfl t ht

theorem tokensOf_all (l : List Char) :
    ∀ t ∈ tokensOf l, t ≠ [] ∧ t.all isAlnumChar = true :=
  tokensAux_all l [] rfl

theorem tokensOf_join (ts : List (List Char)) (hne : ts ≠ [])
    (h : ∀ t ∈ ts, t ≠ [] ∧ t.all isAlnumChar = true) :
    tokensOf (joinTokens ts) = ts := by
  induction ts with
  | nil => exact absurd rfl hne
  | cons t ts ih =>
    obtain ⟨ht1, ht2⟩ := h t (List.mem_cons_self t ts)
    cases ts with
    | nil =>
      show tokensOf (joinTokens [t]) = [t]
      have h1 : tokensOf (joinTokens [t]) = tokensAux (t ++ []) [] := by
        rw [show joinTokens [t] = t from rfl, List.append_nil]
        rfl
      rw [h1, tokensAux_append_alnum t [] [] ht2, List.append_nil, tokensAux,
        if_neg (by simpa using ht1), List.reverse_reverse]
    | cons t2 ts2 =>
      show tokensOf (t ++ ' ' :: joinTokens (t2 :: ts2)) = t :: t2 :: ts2
      rw [tokensOf, tokensAux_append_alnum t _ [] ht2, List.append_nil,
        tokensAux_space, if_neg (by simpa using ht1), List.reverse_reverse]
      congr 1
      exact ih (by simp) (fun t' ht' => h t' (List.mem_cons_of_mem _ ht'))

theorem join_chars (ts : List (List Char))
    (h : ∀ t ∈ ts, t.all isAlnumChar = true) :
    ∀ c ∈ joinTokens ts, isAlnumChar c = true ∨ c = ' ' := by
  induction ts with
  | nil => intro c hc; simp [joinTokens] at hc
  | cons t ts ih =>
    cases ts with
    | nil =>
      intro c hc
      rw [show joinTokens [t] = t from rfl] at hc
      exact Or.inl (List.all_eq_true.mp (h t (List.mem_cons_self t [])) c hc)
    | cons t2 ts2 =>
      intro c hc
      rw [show joinTokens (t :: t2 :: ts2) =
        t ++ ' ' :: joinTokens (t2 :: ts2) from rfl] at hc
      rcases List.mem_append.mp hc with hc | hc
      · exact Or.inl
          (List.all_eq_true.mp (h t (List.mem_cons_self t _)) c hc)
      · rcases List.mem_cons.mp hc with hc | hc
        · exact Or.inr hc
        · exact ih (fun t' ht' => h t' (List.mem_cons_of_mem _ ht')) c hc

theorem join_head (ts : List (List Char)) (hne : ts ≠ [])
    (h : ∀ t ∈ ts, t ≠ [] ∧ t.all isAlnumChar = true) :
    ∃ c, (joinTokens ts).head? = some c ∧ isAlnumChar c = true := by
  cases ts with
  | nil => exact absurd rfl hne
  | cons t ts =>
    obtain ⟨ht1, ht2⟩ := h t (List.mem_cons_self t ts)
    cases htc : t with
    | nil => exact absurd htc ht1
    | cons c t' =>
      have hc : isAlnumChar c = true := by
        rw [htc, List.all_cons, Bool.and_eq_true] at ht2
        exact ht2.1
      cases ts with
      | nil => exact ⟨c, rfl, hc⟩
      | cons t2 ts2 => exact ⟨c, rfl, hc⟩

theorem join_last (ts : List (List Char)) (hne : ts ≠ [])
    (h : ∀ t ∈ ts, t ≠ [] ∧ t.all isAlnumChar = true) :
    ∃ c, (joinTokens ts).getLast? = some c ∧ isAlnumChar c = true := by
  induction ts with
  | nil => exact absurd rfl hne
  | cons t ts ih =>
    obtain ⟨ht1, ht2⟩ := h t (List.mem_cons_self t ts)
    cases ts with
    | nil =>
      rw [show joinTokens [t] = t from rfl]
      cases hx : t.getLast? with
      | none => exact absurd (List.getLast?_eq_none_iff.mp hx) ht1
      | some c =>
        refine ⟨c, rfl, ?_⟩
        obtain ⟨hne2, hceq⟩ :=
          List.mem_getLast?_eq_getLast (Option.mem_def.mpr hx)
        have hcm : c ∈ t := hceq ▸ List.getLast_mem hne2
        exact List.all_eq_true.mp ht2 c hcm
    | cons t2 ts2 =>
      obtain ⟨c, hc1, hc2⟩ :=
        ih (by simp) (fun t' ht' => h t' (List.mem_cons_of_mem _ ht'))
      have hjne : joinTokens (t2 :: ts2) ≠ [] := by
        intro h0
        rw [h0] at hc1
        simp at hc1
      refine ⟨c, ?_, hc2⟩
      rw [show joinTokens (t :: t2 :: ts2) =
        t ++ ' ' :: joinTokens (t2 :: ts2) from rfl,
        getLast?_append_right _ _ (by simp),
        show (' ' :: joinTokens (t2 :: ts2)) =
          [' '] ++ joinTokens (t2 :: ts2) from rfl,
        getLast?_append_right _ _ hjne]
      exact hc1

theorem normalizeTokens_single (t : List Char) : normalizeTokens [t] = t := by
  simp only [normalizeTokens]
  by_cases hc : SUFFIX_STOPWORDS.contains t = true
  · rw [List.filter_cons, hc]
    simp
  · rw [List.filter_cons, Bool.eq_false_iff.mpr hc]
    simp [joinTokens]

theorem normalizeTokens_no_stop (t : List Char) (ts : List (List Char))
    (h : ∀ tok ∈ t :: ts, SUFFIX_STOPWORDS.contains tok = false) :
    normalizeTokens (t :: ts) = joinTokens (t :: ts) := by
  simp only [normalizeTokens]
  have hf : (t :: ts).filter (fun tok => !(SUFFIX_STOPWORDS.contains tok)) =
      t :: ts :=
    List.filter_eq_self.mpr (fun tok htok => by rw [h tok htok]; rfl)
  rw [hf, if_neg (by simp)]

/-- Re-normalizing a joined token list built from nonempty alphanumeric
tokens is a no-op, provided no token is a stopword or the list is a
single token (the two shapes the canonicalizer can emit). -/
theorem normalizeCore_join (fs : List (List Char)) (hne : fs ≠ [])
    (hts : ∀ t ∈ fs, t ≠ [] ∧ t.all isAlnumChar = true)
    (hstop : (∀ t ∈ fs, SUFFIX_STOPWORDS.contains t = false) ∨ ∃ t, fs = [t]) :
    normalizeCore (joinTokens fs) = joinTokens fs := by
  have hchars := join_chars fs (fun t ht => (hts t ht).2)
  obtain ⟨ch, hh1, hh2⟩ := join_head fs hne hts
  obtain ⟨cl, hl1, hl2⟩ := join_last fs hne hts
  have hstrip : pyStrip (joinTokens fs) = joinTokens fs := by
    apply pyStrip_eq_self
    · intro c hc
      rw [hh1] at hc
      cases Option.some.inj hc
      exact alnum_not_space ch hh2
    · intro c hc
      rw [hl1] at hc
      cases Option.some.inj hc
      exact alnum_not_space cl hl2
  have hmap : (joinTokens fs).map pyLowerChar = joinTokens fs := by
    have hfix : ∀ c ∈ joinTokens fs, pyLowerChar c = c := by
      intro c hc
      rcases hchars c hc with h | h
      · exact pyLowerChar_alnum c h
      · subst h
        exact pyLowerChar_space
    rw [List.map_congr_left hfix]
    simp
  have hjoin_ne : joinTokens fs ≠ [] := by
    intro h0
    rw [h0] at hh1
    simp at hh1
  have hfilter : (joinTokens fs).filter (fun c => !isQuoteChar c) =
      joinTokens fs := by
    apply List.filter_eq_self.mpr
    intro c hc
    rcases hchars c hc with h | h
    · rw [alnum_not_quote c h]
      rfl
    · subst h
      decide
  simp only [normalizeCore]
  rw [hstrip, hmap, if_neg hjoin_ne, hfilter, tokensOf_join fs hne hts]
  rcases hstop with hstop | ⟨t, hfs⟩
  · cases fs with
    | nil => exact absurd rfl hne
    | cons t fs' => exact normalizeTokens_no_stop t fs' hstop
  · subst hfs
    rw [normalizeTokens_single]
    rfl

/-- Every canonicalizer output is empty or a joined token list of one
of the two shapes handled above. -/
theorem normalizeCore_form (name : List Char) :
    normalizeCore name = [] ∨
      ∃ fs, normalizeCore name = joinTokens fs ∧ fs ≠ [] ∧
        (∀ t ∈ fs, t ≠ [] ∧ t.all isAlnumChar = true) ∧
        ((∀ t ∈ fs, SUFFIX_STOPWORDS.contains t = false) ∨ ∃ t, fs = [t]) := by
  simp only [normalizeCore]
  by_cases h0 : (pyStrip name).map pyLowerChar = []
  · rw [if_pos h0]
    exact Or.inl rfl
  · rw [if_neg h0]
    have htok := tokensOf_all
      (((pyStrip name).map pyLowerChar).filter (fun c => !isQuoteChar c))
    cases hts : tokensOf
        (((pyStrip name).map pyLowerChar).filter (fun c => !isQuoteChar c)) with
    | nil => exact Or.inl rfl
    | cons t fs' =>
      rw [hts] at htok
      right
      by_cases hf : (t :: fs').filter
          (fun tok => !(SUFFIX_STOPWORDS.contains tok)) = []
      · refine ⟨[t], ?_, by simp, ?_, Or.inr ⟨t, rfl⟩⟩
        · simp only [normalizeTokens]
          rw [if_pos hf]
          rfl
        · intro t' ht'
          simp only [List.mem_singleton] at ht'
          rw [ht']
          exact htok t (List.mem_cons_self t fs')
      · refine ⟨(t :: fs').filter (fun tok => !(SUFFIX_STOPWORDS.contains tok)),
          ?_, hf, ?_, Or.inl ?_⟩
        · simp only [normalizeTokens]
          rw [if_neg hf]
        · intro t' ht'
          exact htok t' (List.mem_of_mem_filter ht')
        · intro t' ht'
          have := List.of_mem_filter ht'
          simpa using this

/-! ### General facts about the grouper's buckets -/

theorem bucketOf_addRecord (m : List ((String × String) × List Record))
    (k : String × String) (r : Record) (k2 : String × String) :
    bucketOf (addRecord m k r) k2 =
      if k = k2 then bucketOf m k2 ++ [r] else bucketOf m k2 := by
  induction m with
  | nil =>
    by_cases h : k = k2 <;> simp [addRecord, bucketOf, h]
  | cons e rest ih =>
    obtain ⟨k', rs⟩ := e
    by_cases h1 : k' = k
    · subst h1
      by_cases h2 : k' = k2 <;> simp [addRecord, bucketOf, h2]
    · by_cases h2 : k' = k2
      · subst h2
        have hk : ¬ k = k' := fun h => h1 h.symm
        simp [addRecord, bucketOf, h1, hk]
      · simp [addRecord, bucketOf, h1, h2, ih]

theorem bucketOf_foldl (rows : List Record) :
    ∀ (m : List ((String × String) × List Record)) (k : String × String),
      bucketOf (rows.foldl (fun m r => addRecord m (recKey r) r) m) k =
        bucketOf m k ++ rows.filter (fun r => recKey r = k) := by
  induction rows with
  | nil => intro m k; simp
  | cons r rows ih =>
    intro m k
    rw [List.foldl_cons, ih, bucketOf_addRecord]
    by_cases h : recKey r = k
    · simp [h, List.filter_cons]
    · simp [h, List.filter_cons]

theorem bucketOf_buildByKey (items : List Record) (k : String × String) :
    bucketOf (buildByKey items) k = items.filter (fun r => recKey r = k) := by
  have h := bucketOf_foldl items [] k
  simpa [buildByKey, recKey] using h

theorem bucketOf_mem (m : List ((String × String) × List Record))
    (k : String × String) (h : bucketOf m k ≠ []) : (k, bucketOf m k) ∈ m := by
  induction m with
  | nil => simp [bucketOf] at h
  | cons e rest ih =>
    obtain ⟨k', rs⟩ := e
    by_cases h1 : k' = k
    · subst h1
      simp only [bucketOf, if_pos rfl]
      exact List.mem_cons_self _ _
    · simp only [bucketOf, if_neg h1] at h ⊢
      exact List.mem_cons_of_mem _ (ih h)

theorem addRecord_key_correct (m : List ((String × String) × List Record))
    (k : String × String) (r : Record) (hk : k = recKey r)
    (h : ∀ e ∈ m, ∀ x ∈ e.2, e.1 = recKey x) :
    ∀ e ∈ addRecord m k r, ∀ x ∈ e.2, e.1 = recKey x := by
  induction m with
  | nil =>
    intro e he x hx
    simp only [addRecord, List.mem_singleton] at he
    subst he
    simp only [List.mem_singleton] at hx
    subst hx
    exact hk
  | cons e0 rest ih =>
    obtain ⟨k', rs⟩ := e0
    by_cases h1 : k' = k
    · subst h1
      intro e he x hx
      rw [addRecord, if_pos rfl] at he
      rcases List.mem_cons.mp he with he | he
      · subst he
        rcases List.mem_append.mp hx with hx | hx
        · exact h (k', rs) (List.mem_cons_self _ _) x hx
        · simp only [List.mem_singleton] at hx
          subst hx
          exact hk
      · exact h e (List.mem_cons_of_mem _ he) x hx
    · intro e he x hx
      rw [addRecord, if_neg h1] at he
      rcases List.mem_cons.mp he with he | he
      · subst he
        exact h (k', rs) (List.mem_cons_self _ _) x hx
      · exact ih (fun e' he' => h e' (List.mem_cons_of_mem _ he')) e he x hx

theorem buildByKey_key_correct_aux (rows : List Record) :
    ∀ (m : List ((String × String) × List Record)),
      (∀ e ∈ m, ∀ x ∈ e.2, e.1 = recKey x) →
      ∀ e ∈ rows.foldl (fun m r => addRecord m (recKey r) r) m,
        ∀ x ∈ e.2, e.1 = recKey x := by
  induction rows with
  | nil => intro m h; simpa using h
  | cons r rows ih =>
    intro m h
    rw [List.foldl_cons]
    exact ih _ (addRecord_key_correct m (recKey r) r rfl h)

theorem buildByKey_key_correct (items : List Record) :
    ∀ e ∈ buildByKey items, ∀ x ∈ e.2, e.1 = recKey x := by
  have h := buildByKey_key_correct_aux items [] (by simp)
  simpa [buildByKey, recKey] using h

theorem addRecord_keys (m : List ((String × String) × List Record))
    (k : String × String) (r : Record) :
    (addRecord m k r).map Prod.fst =
      if k ∈ m.map Prod.fst then m.map Prod.fst else m.map Prod.fst ++ [k] := by
  induction m with
  | nil => simp [addRecord]
  | cons e rest ih =>
    obtain ⟨k', rs⟩ := e
    by_cases h1 : k' = k
    · subst h1
      simp [addRecord]
    · have h1' : ¬ k = k' := fun h => h1 h.symm
      by_cases h2 : k ∈ rest.map Prod.fst <;>
        simp [addRecord, h1, h1', h2, ih]

theorem addRecord_keys_nodup (m : List ((String × String) × List Record))
    (k : String × String) (r : Record) (h : (m.map Prod.fst).Nodup) :
    ((addRecord m k r).map Prod.fst).Nodup := by
  rw [addRecord_keys]
  by_cases h2 : k ∈ m.map Prod.fst
  · simpa [h2]
  · simp only [h2, if_false]
    simp [List.nodup_append, h, h2]

theorem buildByKey_keys_nodup (items : List Record) :
    ((buildByKey items).map Prod.fst).Nodup := by
  suffices h : ∀ (m : List ((String × String) × List Record)),
      (m.map Prod.fst).Nodup →
      ((items.foldl (fun m r => addRecord m (recKey r) r) m).map Prod.fst).Nodup by
    have := h [] (by simp)
    simpa [buildByKey, recKey] using this
  induction items with
  | nil => intro m h; simpa using h
  | cons r rows ih =>
    intro m h
    rw [List.foldl_cons]
    exact ih _ (addRecord_keys_nodup m (recKey r) r h)

/-- The records of a wide payload are exactly the bucket's records. -/
theorem mkWide_records (rs : List Record) : (mkWide rs).records = rs := by
  match rs with
  | [] => rfl
  | [r] => rfl
  | a :: b :: t => rfl

theorem flatMap_addRecord (m : List ((String × String) × List Record))
    (k : String × String) (r : Record) :
    List.Perm ((addRecord m k r).flatMap Prod.snd) (r :: m.flatMap Prod.snd) := by
  induction m with
  | nil => simp [addRecord]
  | cons e rest ih =>
    obtain ⟨k', rs⟩ := e
    by_cases h1 : k' = k
    · subst h1
      rw [addRecord, if_pos rfl]
      simp only [List.flatMap_cons, List.append_assoc, List.singleton_append]
      exact List.perm_middle
    · rw [addRecord, if_neg h1]
      simp only [List.flatMap_cons]
      exact ((ih.append_left rs).trans List.perm_middle)

theorem flatMap_foldl (rows : List Record) :
    ∀ (m : List ((String × String) × List Record)),
      List.Perm ((rows.foldl (fun m r => addRecord m (recKey r) r) m).flatMap Prod.snd)
        (m.flatMap Prod.snd ++ rows) := by
  induction rows with
  | nil => intro m; simp
  | cons r rows ih =>
    intro m
    rw [List.foldl_cons]
    refine (ih _).trans ?_
    refine (((flatMap_addRecord m (recKey r) r).append_right rows).trans ?_)
    exact List.perm_middle.symm

theorem flatMap_buildByKey (items : List Record) :
    List.Perm ((buildByKey items).flatMap Prod.snd) items := by
  have h := flatMap_foldl items []
  simpa [buildByKey, recKey] using h

/-- Helper: pull the middle block of a three-block append to the front. -/
theorem perm_pull_mid (a b c d : List α) :
    List.Perm (a ++ (d ++ b) ++ c) (d ++ (a ++ b ++ c)) := by
  have e1 : a ++ (d ++ b) ++ c = (a ++ d) ++ (b ++ c) := by
    simp [List.append_assoc]
  have e2 : d ++ (a ++ b ++ c) = (d ++ a) ++ (b ++ c) := by
    simp [List.append_assoc]
  rw [e1, e2]
  exact (List.perm_append_comm).append_right (b ++ c)

/-- Helper: pull the right block of a three-block append to the front. -/
theorem perm_pull_right (a b c d : List α) :
    List.Perm (a ++ b ++ (d ++ c)) (d ++ (a ++ b ++ c)) := by
  have e1 : a ++ b ++ (d ++ c) = ((a ++ b) ++ d) ++ c := by
    simp [List.append_assoc]
  have e2 : d ++ (a ++ b ++ c) = (d ++ (a ++ b)) ++ c := by
    simp [List.append_assoc]
  rw [e1, e2]
  exact (List.perm_append_comm).append_right c

/-- The three output `filterMap`s partition the records of the sorted
`by_key` list. -/
theorem out_partition (bk : List ((String × String) × List Record)) :
    List.Perm
      ((bk.filterMap perSelect).flatMap (fun e => e.2.records) ++
        (bk.filterMap volSelect).flatMap (fun e => e.2.records) ++
        (bk.filterMap mfSelect).flatMap (fun e => e.2.records))
      (bk.flatMap Prod.snd) := by
  induction bk with
  | nil => simp
  | cons e bk ih =>
    obtain ⟨⟨t, s⟩, rs⟩ := e
    by_cases hv : s = "volume"
    · subst hv
      have h1 : perSelect ((t, "volume"), rs) = none := rfl
      have h2 : volSelect ((t, "volume"), rs) = some (t, mkWide rs) := rfl
      have h3 : mfSelect ((t, "volume"), rs) = none := rfl
      simp only [List.filterMap_cons, h1, h2, h3, List.flatMap_cons, mkWide_records]
      exact (perm_pull_mid _ _ _ rs).trans (ih.append_left rs)
    · by_cases hm : s = "magic_formula"
      · subst hm
        have h1 : perSelect ((t, "magic_formula"), rs) = none := rfl
        have h2 : volSelect ((t, "magic_formula"), rs) = none := rfl
        have h3 : mfSelect ((t, "magic_formula"), rs) = some (t, mkWide rs) := rfl
        simp only [List.filterMap_cons, h1, h2, h3, List.flatMap_cons, mkWide_records]
        exact (perm_pull_right _ _ _ rs).trans (ih.append_left rs)
      · have h1 : perSelect ((t, s), rs) = some ((t, s), .full t s rs) := by
          simp [perSelect, hv, hm]
        have h2 : volSelect ((t, s), rs) = none := by simp [volSelect, hv]
        have h3 : mfSelect ((t, s), rs) = none := by simp [mfSelect, hm]
        simp only [List.filterMap_cons, h1, h2, h3, List.flatMap_cons,
          GPayload.records]
        have ih2 := ih.append_left rs
        rw [List.append_assoc] at ih2
        rw [List.append_assoc, List.append_assoc]
        exact ih2

/-- Every input record lands in the sorted `by_key` bucket keyed by its
normalized `(ticker, source)`. -/
theorem mem_byKeySorted_bucket (items : List Record) (r : Record)
    (hr : r ∈ items) :
    ∃ e ∈ byKeySorted items, e.1 = recKey r ∧ r ∈ e.2 := by
  have hbucket : r ∈ bucketOf (buildByKey items) (recKey r) := by
    rw [bucketOf_buildByKey]
    exact List.mem_filter.mpr ⟨hr, by simp⟩
  have hne : bucketOf (buildByKey items) (recKey r) ≠ [] :=
    List.ne_nil_of_mem hbucket
  have hmem := bucketOf_mem (buildByKey items) (recKey r) hne
  refine ⟨(recKey r, bucketOf (buildByKey items) (recKey r)), ?_, rfl, hbucket⟩
  exact ((sortLe_perm _ (buildByKey items)).mem_iff).mpr hmem

/-- Every record of a sorted `by_key` bucket has that bucket's key. -/
theorem byKeySorted_key_correct (items : List Record) :
    ∀ e ∈ byKeySorted items, ∀ x ∈ e.2, e.1 = recKey x := by
  intro e he
  exact buildByKey_key_correct items e
    (((sortLe_perm _ (buildByKey items)).mem_iff).mp he)

/-- The records of the three outputs are a permutation of the input. -/
theorem outRecords_perm (items : List Record) :
    List.Perm (outRecords items) items := by
  refine (out_partition (byKeySorted items)).trans ?_
  refine List.Perm.trans ?_ (flatMap_buildByKey items)
  exact (sortLe_perm _ (buildByKey items)).flatMap_right Prod.snd

/-- A record with a wide source never lands in a per-ticker artifact. -/
theorem not_mem_perTicker_of_wide (items : List Record) (r : Record)
    (h : normSource r = "volume" ∨ normSource r = "magic_formula") :
    ∀ e ∈ perTickerOut items, ¬ r ∈ e.2.records := by
  intro e he hmem
  rw [perTickerOut, List.mem_filterMap] at he
  obtain ⟨a, ha, hsel⟩ := he
  by_cases hcond : a.1.2 = "volume" ∨ a.1.2 = "magic_formula"
  · rw [perSelect, if_pos hcond] at hsel
    exact Option.noConfusion hsel
  · rw [perSelect, if_neg hcond] at hsel
    cases Option.some.inj hsel
    have hk := byKeySorted_key_correct items a ha r hmem
    have : a.1.2 = normSource r := by rw [hk]; rfl
    rw [this] at hcond
    exact hcond h

theorem countLe_total (a b : String × Nat) : countLe a b || countLe b a := by
  rw [countLe, countLe]
  rcases Nat.lt_trichotomy a.2 b.2 with h | h | h
  · simp [h]
  · have := strLe_total a.1 b.1
    rcases Bool.or_eq_true_iff.mp this with h2 | h2 <;> simp [h, h2]
  · simp [h, Nat.not_lt_of_lt h]

theorem countLe_trans (a b c : String × Nat) (h1 : countLe a b = true)
    (h2 : countLe b c = true) : countLe a c = true := by
  rw [countLe] at h1 h2 ⊢
  simp only [Bool.or_eq_true, Bool.and_eq_true, decide_eq_true_eq] at h1 h2 ⊢
  rcases h1 with h1 | ⟨h1, h1'⟩
  · rcases h2 with h2 | ⟨h2, h2'⟩
    · exact Or.inl (by omega)
    · exact Or.inl (by omega)
  · rcases h2 with h2 | ⟨h2, h2'⟩
    · exact Or.inl (by omega)
    · exact Or.inr ⟨by omega, strLe_trans _ _ _ h1' h2'⟩

/-- The head of the embedded sort is minimal for any total transitive
boolean order. -/
theorem sortLe_head_min (le : α → α → Bool) (htot : ∀ a b, le a b || le b a)
    (htrans : ∀ a b c, le a b = true → le b c = true → le a c = true)
    (l : List α) (x : α) (xs : List α) (h : sortLe le l = x :: xs) :
    ∀ y ∈ l, le x y = true := by
  have hchain := sortLe_chain le htot l
  rw [h] at hchain
  have hpair := (@List.chain'_iff_pairwise α (fun a b => le a b = true)
    ⟨fun a b c hab hbc => htrans a b c hab hbc⟩ (x :: xs)).mp hchain
  intro y hy
  have hy2 : y ∈ x :: xs := by
    rw [← h]
    exact ((sortLe_perm le l).mem_iff).mpr hy
  rcases List.mem_cons.mp hy2 with hy2 | hy2
  · subst hy2
    have := htot y y
    simpa using this
  · exact (List.pairwise_cons.mp hpair).1 y hy2

/-! ### General facts about the shark scan state -/

theorem tickersOf_addTicker (m : List (String × List String)) (k t : String)
    (k2 : String) :
    tickersOf (addTicker m k t) k2 =
      if k = k2 then
        (if t ∈ tickersOf m k2 then tickersOf m k2 else tickersOf m k2 ++ [t])
      else tickersOf m k2 := by
  induction m with
  | nil =>
    by_cases h : k = k2 <;> simp [addTicker, tickersOf, h]
  | cons e rest ih =>
    obtain ⟨k', ts⟩ := e
    by_cases h1 : k' = k
    · subst h1
      by_cases h2 : k' = k2 <;> simp [addTicker, tickersOf, h2]
    · by_cases h2 : k' = k2
      · subst h2
        have hk : ¬ k = k' := fun h => h1 h.symm
        simp [addTicker, tickersOf, h1, hk]
      · simp [addTicker, tickersOf, h1, h2, ih]

theorem mem_tickersOf_scan (rows : List SharkRow) :
    ∀ (st : AccState) (k t : String),
      t ∈ tickersOf (rows.foldl scanStep st).acc k ↔
        t ∈ tickersOf st.acc k ∨ ∃ r ∈ rows, r.key = k ∧ r.ticker = t := by
  induction rows with
  | nil => intro st k t; simp
  | cons r rows ih =>
    intro st k t
    rw [List.foldl_cons, ih (scanStep st r) k t,
      show (scanStep st r).acc = addTicker st.acc r.key r.ticker from rfl,
      tickersOf_addTicker]
    constructor
    · intro h
      rcases h with h | ⟨r', hr', h1, h2⟩
      · by_cases hk : r.key = k
        · rw [if_pos hk] at h
          by_cases hmem : r.ticker ∈ tickersOf st.acc k
          · rw [if_pos hmem] at h
            exact Or.inl h
          · rw [if_neg hmem] at h
            rcases List.mem_append.mp h with h | h
            · exact Or.inl h
            · simp only [List.mem_singleton] at h
              exact Or.inr ⟨r, List.mem_cons_self r rows, hk, h.symm⟩
        · rw [if_neg hk] at h
          exact Or.inl h
      · exact Or.inr ⟨r', List.mem_cons_of_mem r hr', h1, h2⟩
    · intro h
      rcases h with h | ⟨r', hr', h1, h2⟩
      · left
        by_cases hk : r.key = k
        · rw [if_pos hk]
          by_cases hmem : r.ticker ∈ tickersOf st.acc k
          · rw [if_pos hmem]
            exact h
          · rw [if_neg hmem]
            exact List.mem_append_left _ h
        · rw [if_neg hk]
          exact h
      · rcases List.mem_cons.mp hr' with hr'' | hr''
        · left
          rw [hr''] at h1 h2
          rw [if_pos h1]
          by_cases hmem : r.ticker ∈ tickersOf st.acc k
          · rw [if_pos hmem, ← h2]
            exact hmem
          · rw [if_neg hmem, ← h2]
            exact List.mem_append_right _ (List.mem_singleton_self _)
        · exact Or.inr ⟨r', hr'', h1, h2⟩

theorem nodup_tickersOf_scan (rows : List SharkRow) :
    ∀ (st : AccState) (k : String), (tickersOf st.acc k).Nodup →
      (tickersOf (rows.foldl scanStep st).acc k).Nodup := by
  induction rows with
  | nil => intro st k h; simpa using h
  | cons r rows ih =>
    intro st k h
    rw [List.foldl_cons]
    apply ih
    rw [show (scanStep st r).acc = addTicker st.acc r.key r.ticker from rfl,
      tickersOf_addTicker]
    by_cases hk : r.key = k
    · rw [if_pos hk]
      by_cases hmem : r.ticker ∈ tickersOf st.acc k
      · rw [if_pos hmem]
        exact h
      · rw [if_neg hmem]
        simp [List.nodup_append, h, hmem]
    · rw [if_neg hk]
      exact h

theorem addTicker_keys (m : List (String × List String)) (k t : String) :
    (addTicker m k t).map Prod.fst =
      if k ∈ m.map Prod.fst then m.map Prod.fst else m.map Prod.fst ++ [k] := by
  induction m with
  | nil => simp [addTicker]
  | cons e rest ih =>
    obtain ⟨k', ts⟩ := e
    by_cases h1 : k' = k
    · subst h1
      simp [addTicker]
    · have h1' : ¬ k = k' := fun h => h1 h.symm
      by_cases h2 : k ∈ rest.map Prod.fst <;>
        simp [addTicker, h1, h1', h2, ih]

theorem scan_keys_nodup (rows : List SharkRow) :
    ∀ st : AccState, (st.acc.map Prod.fst).Nodup →
      ((rows.foldl scanStep st).acc.map Prod.fst).Nodup := by
  induction rows with
  | nil => intro st h; simpa using h
  | cons r rows ih =>
    intro st h
    rw [List.foldl_cons]
    apply ih
    rw [show (scanStep st r).acc = addTicker st.acc r.key r.ticker from rfl,
      addTicker_keys]
    by_cases h2 : r.key ∈ st.acc.map Prod.fst
    · rw [if_pos h2]
      exact h
    · rw [if_neg h2]
      simp [List.nodup_append, h, h2]

theorem entry_eq_tickersOf (m : List (String × List String)) (k : String)
    (ts : List String) (hmem : (k, ts) ∈ m) (hnd : (m.map Prod.fst).Nodup) :
    ts = tickersOf m k := by
  induction m with
  | nil => simp at hmem
  | cons e rest ih =>
    obtain ⟨k', ts'⟩ := e
    rcases List.mem_cons.mp hmem with h | h
    · cases h
      rw [tickersOf, if_pos rfl]
    · have hk : k ∈ rest.map Prod.fst := by
        have := List.mem_map_of_mem Prod.fst h
        simpa using this
      simp only [List.map_cons, List.nodup_cons] at hnd
      have hne : k' ≠ k := fun he => hnd.1 (he ▸ hk)
      rw [tickersOf, if_neg hne]
      exact ih h hnd.2

theorem countVal_bumpCount (cs : List (String × Nat)) (n0 n : String) :
    countVal (bumpCount cs n0) n =
      countVal cs n + (if n0 = n then 1 else 0) := by
  induction cs with
  | nil =>
    by_cases h : n0 = n <;> simp [bumpCount, countVal, h]
  | cons e rest ih =>
    obtain ⟨n', c⟩ := e
    by_cases h1 : n' = n0
    · subst h1
      by_cases h2 : n' = n
      · subst h2
        simp [bumpCount, countVal]
      · simp [bumpCount, countVal, h2]
    · by_cases h2 : n' = n
      · subst h2
        have h3 : n0 ≠ n' := fun h => h1 h.symm
        simp [bumpCount, countVal, h1, h3]
      · simp [bumpCount, countVal, h1, h2, ih]

theorem countsOf_addCount (m : List (String × List (String × Nat)))
    (k0 n0 k : String) :
    countsOf (addCount m k0 n0) k =
      if k0 = k then bumpCount (countsOf m k) n0 else countsOf m k := by
  induction m with
  | nil =>
    by_cases h : k0 = k <;> simp [addCount, countsOf, bumpCount, h]
  | cons e rest ih =>
    obtain ⟨k', cs⟩ := e
    by_cases h1 : k' = k0
    · subst h1
      by_cases h2 : k' = k <;> simp [addCount, countsOf, h2]
    · by_cases h2 : k' = k
      · subst h2
        have h3 : ¬ k0 = k' := fun h => h1 h.symm
        simp [addCount, countsOf, h1, h3]
      · simp [addCount, countsOf, h1, h2, ih]

theorem countVal_scan (rows : List SharkRow) :
    ∀ (st : AccState) (k n : String),
      countVal (countsOf (rows.foldl scanStep st).cnt k) n =
        countVal (countsOf st.cnt k) n + spellCount rows k n := by
  induction rows with
  | nil => intro st k n; simp [spellCount]
  | cons r rows ih =>
    intro st k n
    rw [List.foldl_cons, ih (scanStep st r) k n,
      show (scanStep st r).cnt = addCount st.cnt r.key r.nameRaw from rfl,
      countsOf_addCount]
    rw [show spellCount (r :: rows) k n =
      ((if r.key = k ∧ r.nameRaw = n then 1 else 0) + spellCount rows k n) from ?_]
    · by_cases hk : r.key = k
      · rw [if_pos hk, countVal_bumpCount]
        by_cases hn : r.nameRaw = n
        · rw [if_pos hn, if_pos ⟨hk, hn⟩]
          omega
        · rw [if_neg hn, if_neg (fun hc => hn hc.2)]
          omega
      · rw [if_neg hk, if_neg (fun hc => hk hc.1)]
        omega
    · rw [spellCount, spellCount, List.countP_cons]
      by_cases hc : r.key = k ∧ r.nameRaw = n
      · rw [if_pos hc, if_pos (by simp [hc.1, hc.2])]
        omega
      · rw [if_neg hc, if_neg ?_]
        · omega
        · intro hb
          simp only [Bool.and_eq_true, decide_eq_true_eq] at hb
          exact hc hb

theorem bumpCount_keys (cs : List (String × Nat)) (n : String) :
    (bumpCount cs n).map Prod.fst =
      if n ∈ cs.map Prod.fst then cs.map Prod.fst
      else cs.map Prod.fst ++ [n] := by
  induction cs with
  | nil => simp [bumpCount]
  | cons e rest ih =>
    obtain ⟨n', c⟩ := e
    by_cases h1 : n' = n
    · subst h1
      simp [bumpCount]
    · have h1' : ¬ n = n' := fun h => h1 h.symm
      by_cases h2 : n ∈ rest.map Prod.fst <;>
        simp [bumpCount, h1, h1', h2, ih]

theorem names_nodup_scan (rows : List SharkRow) :
    ∀ (st : AccState) (k : String),
      ((countsOf st.cnt k).map Prod.fst).Nodup →
      ((countsOf (rows.foldl scanStep st).cnt k).map Prod.fst).Nodup := by
  induction rows with
  | nil => intro st k h; simpa using h
  | cons r rows ih =>
    intro st k h
    rw [List.foldl_cons]
    apply ih
    rw [show (scanStep st r).cnt = addCount st.cnt r.key r.nameRaw from rfl,
      countsOf_addCount]
    by_cases hk : r.key = k
    · rw [if_pos hk, bumpCount_keys]
      by_cases hm : r.nameRaw ∈ (countsOf st.cnt k).map Prod.fst
      · rw [if_pos hm]
        exact h
      · rw [if_neg hm]
        simp [List.nodup_append, h, hm]
    · rw [if_neg hk]
      exact h

theorem bumpCount_pos (cs : List (String × Nat)) (n : String)
    (h : ∀ e ∈ cs, 0 < e.2) : ∀ e ∈ bumpCount cs n, 0 < e.2 := by
  induction cs with
  | nil =>
    intro e he
    simp only [bumpCount, List.mem_singleton] at he
    subst he
    exact Nat.one_pos
  | cons e0 rest ih =>
    obtain ⟨n', c⟩ := e0
    intro e he
    by_cases h1 : n' = n
    · subst h1
      rw [bumpCount, if_pos rfl] at he
      rcases List.mem_cons.mp he with he | he
      · subst he
        exact Nat.succ_pos c
      · exact h e (List.mem_cons_of_mem _ he)
    · rw [bumpCount, if_neg h1] at he
      rcases List.mem_cons.mp he with he | he
      · subst he
        exact h (n', c) (List.mem_cons_self _ _)
      · exact ih (fun e' he' => h e' (List.mem_cons_of_mem _ he')) e he

theorem counts_pos_scan (rows : List SharkRow) :
    ∀ (st : AccState) (k : String),
      (∀ e ∈ countsOf st.cnt k, 0 < e.2) →
      ∀ e ∈ countsOf (rows.foldl scanStep st).cnt k, 0 < e.2 := by
  induction rows with
  | nil => intro st k h; simpa using h
  | cons r rows ih =>
    intro st k h
    rw [List.foldl_cons]
    apply ih
    rw [show (scanStep st r).cnt = addCount st.cnt r.key r.nameRaw from rfl,
      countsOf_addCount]
    by_cases hk : r.key = k
    · rw [if_pos hk]
      exact bumpCount_pos _ _ h
    · rw [if_neg hk]
      exact h

theorem countVal_eq_of_mem (cs : List (String × Nat)) (n : String) (c : Nat)
    (hmem : (n, c) ∈ cs) (hnd : (cs.map Prod.fst).Nodup) :
    countVal cs n = c := by
  induction cs with
  | nil => simp at hmem
  | cons e rest ih =>
    obtain ⟨n', c'⟩ := e
    rcases List.mem_cons.mp hmem with h | h
    · cases h
      rw [countVal, if_pos rfl]
    · have hn : n ∈ rest.map Prod.fst := by
        have := List.mem_map_of_mem Prod.fst h
        simpa using this
      simp only [List.map_cons, List.nodup_cons] at hnd
      have hne : n' ≠ n := fun he => hnd.1 (he ▸ hn)
      rw [countVal, if_neg hne]
      exact ih h hnd.2

theorem countVal_eq_zero_of_not_mem (cs : List (String × Nat)) (n : String)
    (h : n ∉ cs.map Prod.fst) : countVal cs n = 0 := by
  induction cs with
  | nil => rfl
  | cons e rest ih =>
    obtain ⟨n', c⟩ := e
    simp only [List.map_cons, List.mem_cons] at h
    rw [countVal, if_neg (fun he => h (Or.inl he.symm))]
    exact ih (fun he => h (Or.inr he))

theorem bumpCount_ne_nil (cs : List (String × Nat)) (n : String) :
    bumpCount cs n ≠ [] := by
  cases cs with
  | nil => simp [bumpCount]
  | cons e rest =>
    obtain ⟨n', c⟩ := e
    by_cases h : n' = n
    · rw [bumpCount, if_pos h]
      simp
    · rw [bumpCount, if_neg h]
      simp

theorem acc_counts_ne_nil_scan (rows : List SharkRow) :
    ∀ (st : AccState) (k : String),
      (k ∈ st.acc.map Prod.fst → countsOf st.cnt k ≠ []) →
      (k ∈ (rows.foldl scanStep st).acc.map Prod.fst →
        countsOf (rows.foldl scanStep st).cnt k ≠ []) := by
  induction rows with
  | nil => intro st k h; simpa using h
  | cons r rows ih =>
    intro st k h
    rw [List.foldl_cons]
    apply ih
    intro hk
    rw [show (scanStep st r).cnt = addCount st.cnt r.key r.nameRaw from rfl,
      countsOf_addCount]
    by_cases hrk : r.key = k
    · rw [if_pos hrk]
      exact bumpCount_ne_nil _ _
    · rw [if_neg hrk]
      apply h
      rw [show (scanStep st r).acc = addTicker st.acc r.key r.ticker from rfl,
        addTicker_keys] at hk
      by_cases h2 : r.key ∈ st.acc.map Prod.fst
      · rw [if_pos h2] at hk
        exact hk
      · rw [if_neg h2] at hk
        rcases List.mem_append.mp hk with hk | hk
        · exact hk
        · simp only [List.mem_singleton] at hk
          exact absurd hk.symm hrk

/-! ### Claim C1 -/

/-- C1, counterexample: on the fixture rows the resolver does produce
two sharks with the claimed keys, quantities and tickers, but the
display names are `"ACME"` and `"Beta Ltd"`, not the claimed
`"ACME Corp"` and `"Beta"`: all three raw spellings mapped to `"acme"`
occur exactly once each (`"ACME Corp"` and `"ACME CORP"` are distinct
raw strings), so the tie-break picks the lexicographically smallest
spelling `"ACME"`; and the only raw spelling for `"beta"` is
`"Beta Ltd"`. -/
theorem fixture_display_names_refute_claim :
    ((build_sharks fixtureFiles).getD []).map Shark.shark_name = ["ACME", "Beta Ltd"] ∧
      ¬ ((build_sharks fixtureFiles).getD []).map Shark.shark_name =
          ["ACME Corp", "Beta"] := by
  constructor
  · decide
  · decide

/-- C1, amended: resolving the four fixture rows yields exactly two
sharks: the `"acme"` one with quantity 2, tickers `[A, B]` and display
name `"ACME"` (all spellings tied at one occurrence, lexicographic
tie-break), ranked first; and the `"beta"` one with quantity 1, tickers
`[C]` and display name `"Beta Ltd"`. -/
theorem fixture_resolution_eval :
    _normalize_shark_name "ACME Corp" = "acme" ∧
      _normalize_shark_name "ACME CORP" = "acme" ∧
      _normalize_shark_name "ACME" = "acme" ∧
      _normalize_shark_name "Beta Ltd" = "beta" ∧
      build_sharks fixtureFiles =
        some [⟨"ACME", 2, ["A", "B"]⟩, ⟨"Beta Ltd", 1, ["C"]⟩] := by
  refine ⟨by decide, by decide, by decide, by decide, by decide⟩

/-! ### Claim C2 -/

/-- C2, counterexample: the three fixture inputs do not share one
canonical key — they yield three pairwise distinct keys.  In
`"Banco Itaú S/A"` the accented `ú` is replaced (as a non-`[a-z0-9]`
character) by a token break, and in `"banco   itau, s.a."` the tokens
`s` and `a` survive because neither is a stopword (only `sa` and the
unreachable `s/a` are). -/
theorem canonicalize_fixtures_differ :
    ¬ (_normalize_shark_name "Banco Itaú S/A" = _normalize_shark_name "BANCO ITAU SA" ∧
        _normalize_shark_name "BANCO ITAU SA" = _normalize_shark_name "banco   itau, s.a.") := by
  decide

/-- C2, amended: canonicalization is case-insensitive on these inputs,
but not punctuation-insensitive: the three fixtures yield the three
distinct keys `"banco ita s a"`, `"banco itau"` and `"banco itau s a"`
(punctuation and non-ASCII letters introduce token breaks that change
stopword matching). -/
theorem canonicalize_fixtures_eval :
    _normalize_shark_name "Banco Itaú S/A" = "banco ita s a" ∧
      _normalize_shark_name "BANCO ITAU SA" = "banco itau" ∧
      _normalize_shark_name "banco   itau, s.a." = "banco itau s a" ∧
      _normalize_shark_name "Banco Itaú S/A" = _normalize_shark_name "banco itaú s/a" ∧
      _normalize_shark_name "BANCO ITAU SA" = _normalize_shark_name "banco itau sa" := by
  refine ⟨by decide, by decide, by decide, by decide, by decide⟩

/-! ### Claim C3 -/

/-- C3, counterexample: a per-ticker bucket holding exactly one record
is emitted as the artifact dict `{generated_at, ticker, source,
items: [record]}` — the record list is wrapped under `items` even for a
single record, and the payload is not the bare record. Only the wide
maps unwrap singletons. -/
theorem perTicker_singleton_not_unwrapped :
    perTickerOut [⟨"A", "insiders", 7⟩] =
      [(("A", "insiders"), GPayload.full "A" "insiders" [⟨"A", "insiders", 7⟩])] ∧
      ¬ GPayload.full "A" "insiders" [⟨"A", "insiders", 7⟩] =
          GPayload.bare ⟨"A", "insiders", 7⟩ := by
  constructor
  · decide
  · decide

/-- C3, amended: the single/multi asymmetry holds for the wide
volume/magic_formula buckets (one record: the bare record; more: a
wrapper with the ordered list under `items`), while every per-ticker
bucket is emitted as the full artifact dict carrying the ordered record
list under `items` regardless of the bucket's size. -/
theorem grouper_payload_shapes (items : List Record) :
    (∀ e ∈ perTickerOut items,
      ∃ rs, (e.1, rs) ∈ byKeySorted items ∧ e.2 = GPayload.full e.1.1 e.1.2 rs) ∧
    (∀ e ∈ volumeOut items,
      ∃ rs, ((e.1, "volume"), rs) ∈ byKeySorted items ∧ e.2 = mkWide rs) ∧
    (∀ e ∈ magicFormulaOut items,
      ∃ rs, ((e.1, "magic_formula"), rs) ∈ byKeySorted items ∧ e.2 = mkWide rs) ∧
    (∀ r : Record, mkWide [r] = GPayload.bare r) ∧
    (∀ rs : List Record, 1 < rs.length → mkWide rs = GPayload.wrap rs) := by
  refine ⟨?_, ?_, ?_, fun r => rfl, ?_⟩
  · intro e he
    rw [perTickerOut, List.mem_filterMap] at he
    simp only [perSelect] at he
    obtain ⟨a, ha, hfa⟩ := he
    by_cases hs : a.1.2 = "volume" ∨ a.1.2 = "magic_formula"
    · simp [hs] at hfa
    · simp only [hs, if_false] at hfa
      cases Option.some.inj hfa
      exact ⟨a.2, by simpa using ha, rfl⟩
  · intro e he
    rw [volumeOut, List.mem_filterMap] at he
    simp only [volSelect] at he
    obtain ⟨a, ha, hfa⟩ := he
    by_cases hs : a.1.2 = "volume"
    · simp only [hs, if_true] at hfa
      cases hfa
      refine ⟨a.2, ?_, rfl⟩
      have : a = ((a.1.1, "volume"), a.2) := by
        rcases a with ⟨⟨t, s⟩, rs⟩
        simp_all
      exact this ▸ ha
    · simp [hs] at hfa
  · intro e he
    rw [magicFormulaOut, List.mem_filterMap] at he
    simp only [mfSelect] at he
    obtain ⟨a, ha, hfa⟩ := he
    by_cases hs : a.1.2 = "magic_formula"
    · simp only [hs, if_true] at hfa
      cases hfa
      refine ⟨a.2, ?_, rfl⟩
      have : a = ((a.1.1, "magic_formula"), a.2) := by
        rcases a with ⟨⟨t, s⟩, rs⟩
        simp_all
      exact this ▸ ha
    · simp [hs] at hfa
  · intro rs h
    match rs with
    | [] => simp at h
    | [r] => simp at h
    | a :: b :: t => rfl

/-- C3 witness: instantiating the amended theorem on a concrete
one-record volume input and a concrete two-record bucket. -/
theorem grouper_payload_shapes_witness :
    (∃ rs, (("A", "volume"), rs) ∈ byKeySorted [⟨"A", "volume", 1⟩] ∧
        GPayload.bare ⟨"A", "volume", 1⟩ = mkWide rs) ∧
      mkWide [⟨"A", "volume", 1⟩, ⟨"A", "volume", 2⟩] =
        GPayload.wrap [⟨"A", "volume", 1⟩, ⟨"A", "volume", 2⟩] := by
  refine ⟨?_, (grouper_payload_shapes []).2.2.2.2 _ (by decide)⟩
  exact (grouper_payload_shapes [⟨"A", "volume", 1⟩]).2.1
    ("A", GPayload.bare ⟨"A", "volume", 1⟩) (by decide)

/-! ### Claim C6 -/

/-- C6: grouping is a partition.  The record count across all buckets
of the three outputs equals the input count (indeed the output records
are a permutation of the input, so no record is dropped); every input
record lands in the bucket keyed by its normalized `(ticker, source)`;
a bucket only holds records with its key, and bucket keys are distinct,
so each record is in exactly one bucket; and missing ticker/source
fields normalize to the sentinels `"UNKNOWN"` and `"data"`. -/
theorem grouper_partition (items : List Record) :
    groupedCount items = items.length ∧
    List.Perm (outRecords items) items ∧
    (∀ r, r ∈ items →
      ∃ e ∈ byKeySorted items, e.1 = (normTicker r, normSource r) ∧ r ∈ e.2) ∧
    (∀ e ∈ byKeySorted items, ∀ x ∈ e.2, e.1 = (normTicker x, normSource x)) ∧
    ((byKeySorted items).map Prod.fst).Nodup ∧
    (∀ r : Record, pyUpperStr (pyStripStr r.ticker) = "" → normTicker r = "UNKNOWN") ∧
    (∀ r : Record, pyLowerStr (pyStripStr r.source) = "" → normSource r = "data") := by
  refine ⟨?_, outRecords_perm items, ?_, ?_, ?_, ?_, ?_⟩
  · have h := (outRecords_perm items).length_eq
    rw [← h]
    simp only [groupedCount, outRecords, List.length_append, List.length_flatMap,
      Function.comp_def]
  · exact fun r hr => mem_byKeySorted_bucket items r hr
  · exact byKeySorted_key_correct items
  · exact (((sortLe_perm _ (buildByKey items)).map Prod.fst).nodup_iff).mpr
      (buildByKey_keys_nodup items)
  · intro r h
    simp [normTicker, h]
  · intro r h
    simp [normSource, h]

/-- C6 witness: a record with empty ticker and source `" Volume "` lands
in the single bucket keyed by the sentinel `"UNKNOWN"` and the
normalized source `"volume"`. -/
theorem grouper_partition_witness :
    ∃ e ∈ byKeySorted [⟨"", " Volume ", 5⟩],
      e.1 = (normTicker ⟨"", " Volume ", 5⟩, normSource ⟨"", " Volume ", 5⟩) ∧
        (⟨"", " Volume ", 5⟩ : Record) ∈ e.2 :=
  (grouper_partition [⟨"", " Volume ", 5⟩]).2.2.1 ⟨"", " Volume ", 5⟩ (by decide)

/-! ### Claim C7 -/

/-- C7: wide-map diversion is mutually exclusive with per-ticker
grouping: an input record whose normalized source is `"volume"` (resp.
`"magic_formula"`) appears in no per-ticker artifact, and does appear
in the corresponding wide map keyed purely by its normalized ticker. -/
theorem wide_source_diversion (items : List Record) (r : Record) (hr : r ∈ items) :
    (normSource r = "volume" →
      (∀ e ∈ perTickerOut items, ¬ r ∈ e.2.records) ∧
      ∃ e ∈ volumeOut items, e.1 = normTicker r ∧ r ∈ e.2.records) ∧
    (normSource r = "magic_formula" →
      (∀ e ∈ perTickerOut items, ¬ r ∈ e.2.records) ∧
      ∃ e ∈ magicFormulaOut items, e.1 = normTicker r ∧ r ∈ e.2.records) := by
  constructor
  · intro hsrc
    refine ⟨not_mem_perTicker_of_wide items r (Or.inl hsrc), ?_⟩
    obtain ⟨a, ha, hak, har⟩ := mem_byKeySorted_bucket items r hr
    have ha2 : a.1.2 = "volume" := by rw [hak, ← hsrc]; rfl
    refine ⟨(a.1.1, mkWide a.2), ?_, ?_, ?_⟩
    · rw [volumeOut, List.mem_filterMap]
      exact ⟨a, ha, by rw [volSelect, if_pos ha2]⟩
    · have := congrArg Prod.fst hak
      simpa [recKey] using this
    · rw [mkWide_records]
      exact har
  · intro hsrc
    refine ⟨not_mem_perTicker_of_wide items r (Or.inr hsrc), ?_⟩
    obtain ⟨a, ha, hak, har⟩ := mem_byKeySorted_bucket items r hr
    have ha2 : a.1.2 = "magic_formula" := by rw [hak, ← hsrc]; rfl
    refine ⟨(a.1.1, mkWide a.2), ?_, ?_, ?_⟩
    · rw [magicFormulaOut, List.mem_filterMap]
      exact ⟨a, ha, by rw [mfSelect, if_pos ha2]⟩
    · have := congrArg Prod.fst hak
      simpa [recKey] using this
    · rw [mkWide_records]
      exact har

/-- C7 witness: at a concrete one-record volume input, the record is in
the volume map under its ticker and in no per-ticker artifact. -/
theorem wide_source_diversion_witness :
    (∀ e ∈ perTickerOut [⟨"a", "volume", 9⟩],
      ¬ (⟨"a", "volume", 9⟩ : Record) ∈ e.2.records) ∧
    ∃ e ∈ volumeOut [⟨"a", "volume", 9⟩],
      e.1 = normTicker ⟨"a", "volume", 9⟩ ∧
        (⟨"a", "volume", 9⟩ : Record) ∈ e.2.records :=
  (wide_source_diversion [⟨"a", "volume", 9⟩] ⟨"a", "volume", 9⟩ (by decide)).1
    (by decide)

/-! ### Claim C4 -/

/-- C4: for every canonical key seen during resolution, the emitted
shark's `items` are exactly the distinct tickers where the key appeared
(no duplicates, sorted ascending), `quantity` is their number, and
`shark_name` is a raw spelling that occurs for the key, whose
occurrence count is maximal, and which is lexicographically smallest
among the spellings tied at that count. -/
theorem shark_fields_correct (files : List ArtifactFile)
    (rows : List SharkRow) (hrows : collectRows files = some rows)
    (k : String) (ts : List String) (hk : (k, ts) ∈ (scanRows rows).acc)
    (s : Shark) (hs : s = mkShark (scanRows rows).cnt (k, ts)) :
    (∃ out, build_sharks files = some out ∧ s ∈ out) ∧
    s.items.Nodup ∧
    List.Chain' (fun a b => strLe a b = true) s.items ∧
    (∀ t, t ∈ s.items ↔ ∃ r ∈ rows, r.key = k ∧ r.ticker = t) ∧
    s.quantity = s.items.length ∧
    (∃ r ∈ rows, r.key = k ∧ r.nameRaw = s.shark_name) ∧
    (∀ n, spellCount rows k n ≤ spellCount rows k s.shark_name) ∧
    (∀ n, 0 < spellCount rows k n →
      spellCount rows k n = spellCount rows k s.shark_name →
      strLe s.shark_name n = true) := by
  subst hs
  have hkeys : ((scanRows rows).acc.map Prod.fst).Nodup :=
    scan_keys_nodup _ ⟨[], []⟩ (by simp)
  have hts : ts = tickersOf (scanRows rows).acc k :=
    entry_eq_tickersOf _ k ts hk hkeys
  have hmem_iff : ∀ t,
      t ∈ tickersOf (scanRows rows).acc k ↔
        ∃ r ∈ rows, r.key = k ∧ r.ticker = t := by
    intro t
    have h := mem_tickersOf_scan rows ⟨[], []⟩ k t
    simpa [tickersOf] using h
  have hnodup_ts : ts.Nodup := by
    rw [hts]
    exact nodup_tickersOf_scan _ ⟨[], []⟩ k (by simp [tickersOf])
  have hkmem : k ∈ (scanRows rows).acc.map Prod.fst := by
    have := List.mem_map_of_mem Prod.fst hk
    simpa using this
  have hcnt_ne : countsOf (scanRows rows).cnt k ≠ [] :=
    acc_counts_ne_nil_scan _ ⟨[], []⟩ k (by simp [countsOf]) hkmem
  have hnames_nd :
      ((countsOf (scanRows rows).cnt k).map Prod.fst).Nodup :=
    names_nodup_scan _ ⟨[], []⟩ k (by simp [countsOf])
  have hpos : ∀ e ∈ countsOf (scanRows rows).cnt k,
      0 < e.2 :=
    counts_pos_scan _ ⟨[], []⟩ k (by simp [countsOf])
  have hcv : ∀ n, countVal (countsOf (scanRows rows).cnt k) n =
      spellCount rows k n := by
    intro n
    have h := countVal_scan rows ⟨[], []⟩ k n
    simpa [countsOf, countVal] using h
  cases hsort : sortLe countLe
      (countsOf (scanRows rows).cnt k) with
  | nil =>
    exfalso
    have hp := sortLe_perm countLe
      (countsOf (scanRows rows).cnt k)
    rw [hsort] at hp
    exact hcnt_ne hp.nil_eq.symm
  | cons nc rest =>
    obtain ⟨n0, c0⟩ := nc
    have hname : (mkShark (scanRows rows).cnt
        (k, ts)).shark_name = n0 := by
      simp only [mkShark]
      rw [hsort]
    have hmem_head : (n0, c0) ∈
        countsOf (scanRows rows).cnt k := by
      have : (n0, c0) ∈ sortLe countLe
          (countsOf (scanRows rows).cnt k) := by
        rw [hsort]
        exact List.mem_cons_self _ _
      exact ((sortLe_perm countLe _).mem_iff).mp this
    have hc0 : countVal (countsOf (scanRows rows).cnt k) n0
        = c0 := countVal_eq_of_mem _ n0 c0 hmem_head hnames_nd
    have hc0pos : 0 < c0 := hpos _ hmem_head
    have hmin := sortLe_head_min countLe countLe_total countLe_trans
      (countsOf (scanRows rows).cnt k) (n0, c0) rest hsort
    refine ⟨?_, ?_, ?_, ?_, rfl, ?_, ?_, ?_⟩
    · refine ⟨sortLe sharkLe ((scanRows rows).acc.map
        (mkShark (scanRows rows).cnt)), ?_, ?_⟩
      · rw [build_sharks, hrows]
      · exact ((sortLe_perm sharkLe _).mem_iff).mpr (List.mem_map_of_mem _ hk)
    · show (sortLe strLe ts).Nodup
      exact ((sortLe_perm strLe ts).nodup_iff).mpr hnodup_ts
    · exact sortLe_chain strLe strLe_total ts
    · intro t
      show t ∈ sortLe strLe ts ↔ _
      rw [(sortLe_perm strLe ts).mem_iff, hts]
      exact hmem_iff t
    · rw [hname]
      have hp0 : 0 < spellCount rows k n0 := by
        rw [← hcv, hc0]
        exact hc0pos
      rw [spellCount] at hp0
      obtain ⟨r, hr, hpr⟩ := List.countP_pos_iff.mp hp0
      simp only [Bool.and_eq_true, decide_eq_true_eq] at hpr
      exact ⟨r, hr, hpr.1, hpr.2⟩
    · intro n
      rw [hname, ← hcv, ← hcv, hc0]
      by_cases hn : n ∈
          (countsOf (scanRows rows).cnt k).map Prod.fst
      · obtain ⟨e, hme, he⟩ := List.mem_map.mp hn
        obtain ⟨n', c'⟩ := e
        cases he
        have hcv' := countVal_eq_of_mem _ n' c' hme hnames_nd
        rw [hcv']
        have hle := hmin (n', c') hme
        rw [countLe] at hle
        simp only [Bool.or_eq_true, Bool.and_eq_true, decide_eq_true_eq] at hle
        rcases hle with h | ⟨h, _⟩ <;> omega
      · rw [countVal_eq_zero_of_not_mem _ n hn]
        omega
    · intro n hpn htie
      rw [hname] at htie ⊢
      rw [← hcv] at hpn htie
      rw [← hcv, hc0] at htie
      by_cases hn : n ∈
          (countsOf (scanRows rows).cnt k).map Prod.fst
      · obtain ⟨e, hme, he⟩ := List.mem_map.mp hn
        obtain ⟨n', c'⟩ := e
        cases he
        have hcv' := countVal_eq_of_mem _ n' c' hme hnames_nd
        rw [hcv'] at htie
        have hle := hmin (n', c') hme
        rw [countLe] at hle
        simp only [Bool.or_eq_true, Bool.and_eq_true, decide_eq_true_eq] at hle
        rcases hle with h | ⟨_, h⟩
        · omega
        · exact h
      · rw [countVal_eq_zero_of_not_mem _ n hn] at hpn
        omega

/-- C4 witness: the beta entry of the fixture run satisfies the
resolution contract. -/
theorem shark_fields_correct_witness :
    (∃ out, build_sharks fixtureFiles = some out ∧
        mkShark (scanRows [⟨"A", "ACME Corp", "acme"⟩, ⟨"B", "ACME CORP", "acme"⟩,
          ⟨"A", "ACME", "acme"⟩, ⟨"C", "Beta Ltd", "beta"⟩]).cnt
          ("beta", ["C"]) ∈ out) ∧
      ∃ r ∈ [(⟨"A", "ACME Corp", "acme"⟩ : SharkRow), ⟨"B", "ACME CORP", "acme"⟩,
          ⟨"A", "ACME", "acme"⟩, ⟨"C", "Beta Ltd", "beta"⟩],
        r.key = "beta" ∧
          r.nameRaw = (mkShark (scanRows [⟨"A", "ACME Corp", "acme"⟩,
            ⟨"B", "ACME CORP", "acme"⟩, ⟨"A", "ACME", "acme"⟩,
            ⟨"C", "Beta Ltd", "beta"⟩]).cnt ("beta", ["C"])).shark_name := by
  have h := shark_fields_correct fixtureFiles
    [⟨"A", "ACME Corp", "acme"⟩, ⟨"B", "ACME CORP", "acme"⟩,
      ⟨"A", "ACME", "acme"⟩, ⟨"C", "Beta Ltd", "beta"⟩]
    (by decide) "beta" ["C"] (by decide) _ rfl
  exact ⟨h.1, h.2.2.2.2.2.1⟩

/-! ### Claim C5 -/

/-- C5: whenever the resolver returns a list (no artifact crashed the
scan), that list is sorted by quantity descending, then display name
ascending: every adjacent pair satisfies `quantity_i > quantity_{i+1}`,
or equal quantities and `shark_name_i <= shark_name_{i+1}` in
code-point lexicographic order. -/
theorem build_sharks_output_sorted (files : List ArtifactFile)
    (out : List Shark) (hout : build_sharks files = some out) :
    List.Chain'
      (fun a b => b.quantity < a.quantity ∨
        (a.quantity = b.quantity ∧ strLe a.shark_name b.shark_name = true))
      out := by
  rw [build_sharks] at hout
  cases hc : collectRows files with
  | none =>
    rw [hc] at hout
    exact absurd hout (by simp)
  | some rows =>
    rw [hc] at hout
    cases Option.some.inj hout
    have h := sortLe_chain sharkLe sharkLe_total
      ((scanRows rows).acc.map (mkShark (scanRows rows).cnt))
    refine List.Chain'.imp ?_ h
    intro a b hab
    rw [sharkLe] at hab
    simp only [Bool.or_eq_true, Bool.and_eq_true, decide_eq_true_eq] at hab
    exact hab

/-- C5 witness: the fixture run completes and its output satisfies the
adjacent-pair ordering. -/
theorem build_sharks_output_sorted_witness :
    List.Chain'
      (fun a b => b.quantity < a.quantity ∨
        (a.quantity = b.quantity ∧ strLe a.shark_name b.shark_name = true))
      ([⟨"ACME", 2, ["A", "B"]⟩, ⟨"Beta Ltd", 1, ["C"]⟩] : List Shark) :=
  build_sharks_output_sorted fixtureFiles
    [⟨"ACME", 2, ["A", "B"]⟩, ⟨"Beta Ltd", 1, ["C"]⟩] (by decide)

/-! ### Claim C8 -/

/-- C8: name canonicalization is idempotent on every input string —
including when the first application took the all-stopwords fallback
and returned a stopword token (re-normalizing a lone stopword token
takes the fallback again and returns it unchanged). -/
theorem canonicalize_idempotent (x : String) :
    _normalize_shark_name (_normalize_shark_name x) = _normalize_shark_name x := by
  simp only [_normalize_shark_name]
  congr 1
  show normalizeCore (normalizeCore x.data) = normalizeCore x.data
  rcases normalizeCore_form x.data with h | ⟨fs, hfs, hne, hts, hstop⟩
  · rw [h]
    rfl
  · rw [hfs]
    exact normalizeCore_join fs hne hts hstop

/-! ### Claims C9 and C10 -/

/-- Character-wise literal matching forces equal lengths. -/
theorem matchesLiteral_length :
    ∀ ps cs : List Char, matchesLiteral ps cs = true → cs.length = ps.length := by
  intro ps
  induction ps with
  | nil =>
    intro cs h
    cases cs with
    | nil => rfl
    | cons c cs => simp [matchesLiteral] at h
  | cons p ps ih =>
    intro cs h
    cases cs with
    | nil => simp [matchesLiteral] at h
    | cons c cs =>
      rw [matchesLiteral, Bool.and_eq_true] at h
      simp [ih cs h.2]

/-- Row collection distributes over list append, propagating a crash
from either part. -/
theorem collectRows_append (a b : List ArtifactFile) :
    collectRows (a ++ b) =
      match collectRows a, collectRows b with
      | some ra, some rb => some (ra ++ rb)
      | _, _ => none := by
  induction a with
  | nil =>
    rw [List.nil_append]
    cases hb : collectRows b with
    | none => rfl
    | some rb => simp [collectRows]
  | cons f fs ih =>
    rw [List.cons_append]
    rw [show collectRows (f :: (fs ++ b)) =
      (match fileRows f with
       | none => none
       | some rs =>
         match collectRows (fs ++ b) with
         | none => none
         | some rest => some (rs ++ rest)) from rfl]
    rw [ih]
    rw [show collectRows (f :: fs) =
      (match fileRows f with
       | none => none
       | some rs =>
         match collectRows fs with
         | none => none
         | some rest => some (rs ++ rest)) from rfl]
    cases hf : fileRows f with
    | none => rfl
    | some rs =>
      cases hfs : collectRows fs with
      | none => cases hb : collectRows b <;> rfl
      | some ra =>
        cases hb : collectRows b with
        | none => rfl
        | some rb => simp [List.append_assoc]

/-- Dropping a file that contributes no rows. -/
theorem collectRows_cons_skip (f : ArtifactFile) (fs : List ArtifactFile)
    (h : fileRows f = some []) : collectRows (f :: fs) = collectRows fs := by
  rw [collectRows, h]
  cases collectRows fs with
  | none => rfl
  | some rest => simp

/-- A file contributing no rows leaves the resolution result
unchanged. -/
theorem build_sharks_skip (f : ArtifactFile) (h : fileRows f = some [])
    (l1 l2 : List ArtifactFile) :
    build_sharks (l1 ++ f :: l2) = build_sharks (l1 ++ l2) := by
  rw [build_sharks, build_sharks, collectRows_append, collectRows_append,
    collectRows_cons_skip f l2 h]

/-- A skipped file contributes no rows. -/
theorem fileRows_skipped (f : ArtifactFile) (h : skippedFile f = true) :
    fileRows f = some [] := by
  rcases hp : f.payload with _ | pj
  · simp [fileRows, hp]
  · cases pj with
    | nonDict =>
      simp only [skippedFile, hp] at h
      exact absurd h (by simp)
    | dict p =>
      simp only [skippedFile, hp, Bool.or_eq_true, Bool.not_eq_eq_eq_not,
        Bool.not_true, decide_eq_true_eq] at h
      simp only [fileRows, hp]
      rcases h with h | h
      · rw [if_pos (Or.inl h)]
      · rw [if_pos (Or.inr (by simp [h]))]

/-- C9: one malformed-artifact shape does abort resolution, contrary
to the claim.  A file whose `json.loads` raised is skipped and the
rest still resolve (third conjunct), but a file whose content parses
to a non-dict JSON value (for instance a top-level `[]`) reaches
`payload.get("ticker")` at `sharks.py` line 62, outside the
`try`/`except`, and raises an uncaught `AttributeError`: with such a
file present the whole resolution returns nothing, while removing it
resolves the remaining artifact. -/
theorem nonDict_payload_aborts :
    build_sharks
        [⟨"c.acionistas.json", some (.dict ⟨"C", true, [⟨true, "Beta Ltd"⟩]⟩)⟩,
          ⟨"z.acionistas.json", some .nonDict⟩] = none ∧
      build_sharks
        [⟨"c.acionistas.json", some (.dict ⟨"C", true, [⟨true, "Beta Ltd"⟩]⟩)⟩] =
        some [⟨"Beta Ltd", 1, ["C"]⟩] ∧
      build_sharks
        [⟨"c.acionistas.json", some (.dict ⟨"C", true, [⟨true, "Beta Ltd"⟩]⟩)⟩,
          ⟨"z.acionistas.json", none⟩] =
        some [⟨"Beta Ltd", 1, ["C"]⟩] := by
  refine ⟨by decide, by decide, by decide⟩

/-- C10, counterexample: the fallback regex runs under `re.IGNORECASE`
with Unicode matching, so a stem need not consist of ASCII letters and
digits.  For a file named with the single-character stem KELVIN SIGN
(U+212A, code point 8490) — not an ASCII letter or digit — and an
empty ticker field, the fallback recovers that character as ticker and
the artifact is not skipped: its shareholder row becomes a shark. -/
theorem fallback_accepts_kelvin_stem :
    fallbackStem (String.mk (Char.ofNat 8490 :: ".acionistas.json".data)) =
        some [Char.ofNat 8490] ∧
      isAlnumChar (Char.ofNat 8490) = false ∧
      127 < (Char.ofNat 8490).toNat ∧
      build_sharks
        [⟨String.mk (Char.ofNat 8490 :: ".acionistas.json".data),
          some (.dict ⟨"", true, [⟨true, "Zed"⟩]⟩)⟩] =
        some [⟨"Zed", 1, [String.mk [Char.ofNat 8490]]⟩] := by
  refine ⟨by decide, by decide, by decide, by decide⟩

/-- C10, amended: when the `ticker` field is empty after
normalization, the file-name fallback fires exactly when the name is a
nonempty stem whose every character is matched case-insensitively by
`[a-z0-9]` — the ASCII letters and digits plus İ (U+0130), ı (U+0131),
ſ (U+017F) and K (U+212A) — followed by `.acionistas.json` matched
case-insensitively, and then the recovered ticker is the upper-cased
stem; when the fallback does not fire the artifact is skipped entirely
and contributes no rows to any shark. -/
theorem ticker_filename_fallback (f : ArtifactFile) (p : FilePayload)
    (hp : f.payload = some (.dict p))
    (hempty : pyUpperStr (pyStripStr p.ticker) = "") :
    (∀ stem, fallbackStem f.name = some stem →
      stem ≠ [] ∧ stem.all matchesAlnumCI = true ∧
        (∃ rest, f.name.data = stem ++ rest ∧
          matchesLiteral ".acionistas.json".data rest = true) ∧
        fileTicker f = String.mk (stem.map pyUpperChar)) ∧
    (∀ stem rest, f.name.data = stem ++ rest →
      matchesLiteral ".acionistas.json".data rest = true → stem ≠ [] →
      stem.all matchesAlnumCI = true →
      fallbackStem f.name = some stem) ∧
    (fallbackStem f.name = none →
      fileRows f = some [] ∧
        ∀ l1 l2, build_sharks (l1 ++ f :: l2) = build_sharks (l1 ++ l2)) := by
  refine ⟨?_, ?_, ?_⟩
  · intro stem hstem0
    have hstem := hstem0
    simp only [fallbackStem] at hstem
    split at hstem
    case isTrue hcond =>
      cases Option.some.inj hstem
      obtain ⟨hm, hpos, hall⟩ := hcond
      refine ⟨?_, hall, ?_, ?_⟩
      · intro hnil
        have hlen := congrArg List.length hnil
        rw [List.length_take, List.length_nil] at hlen
        omega
      · refine ⟨f.name.data.drop
          (f.name.data.length - ".acionistas.json".data.length), ?_, hm⟩
        exact (List.take_append_drop _ f.name.data).symm
      · simp only [fileTicker, hp]
        rw [if_pos hempty, hstem0]
    case isFalse hcond => exact Option.noConfusion hstem
  · intro stem rest heq hm hne hall
    have hrl := matchesLiteral_length _ _ hm
    have hlen : f.name.data.length - ".acionistas.json".data.length =
        stem.length := by
      rw [heq, List.length_append]
      omega
    have hdrop : f.name.data.drop stem.length = rest := by
      rw [heq]
      exact List.drop_left stem rest
    have htake : f.name.data.take stem.length = stem := by
      rw [heq]
      exact List.take_left stem rest
    simp only [fallbackStem]
    rw [hlen, hdrop, htake]
    rw [if_pos ⟨hm, List.length_pos.mpr hne, hall⟩]
  · intro hnone
    have hticker : fileTicker f = "" := by
      simp only [fileTicker, hp]
      rw [if_pos hempty, hnone]
    have hrows : fileRows f = some [] := by
      simp only [fileRows, hp]
      rw [if_pos (Or.inl hticker)]
    exact ⟨hrows, fun l1 l2 => build_sharks_skip f hrows l1 l2⟩

/-- C10 witness: an artifact with empty ticker field and a hyphenated
file name is skipped and contributes nothing. -/
theorem ticker_filename_fallback_witness :
    fileRows ⟨"a-b.acionistas.json", some (.dict ⟨"", true, [⟨true, "Xyz"⟩]⟩)⟩ =
        some [] ∧
      ∀ l1 l2,
        build_sharks (l1 ++
            (⟨"a-b.acionistas.json",
              some (.dict ⟨"", true, [⟨true, "Xyz"⟩]⟩)⟩ : ArtifactFile) :: l2) =
          build_sharks (l1 ++ l2) :=
  (ticker_filename_fallback
    ⟨"a-b.acionistas.json", some (.dict ⟨"", true, [⟨true, "Xyz"⟩]⟩)⟩
    ⟨"", true, [⟨true, "Xyz"⟩]⟩ rfl (by decide)).2.2 (by decide)

end Crawler
